import Mathlib

/-!
Verification of the file-combiner archive codec engine (`file_combiner.py`).

The development shallowly embeds the data model and the algorithms of the
source file: the path sanitizer, the content codec (encoding trial order,
base64), the txt and markdown encoders/decoders, the prefetching streaming
writer, the path-sorting of combine, and input-format auto-detection.

Modelling conventions:
* text is `List Char`; raw bytes are `Byte := Fin 256`;
* file-system paths are lists of components (`List (List Char)`), already
  symlink-resolved (the sanitizer resolves the output root before use);
* Python text-mode I/O performs universal-newline translation, so character
  streams handed to the decoders are taken post-translation;
* floating-point metadata fields (`mtime`) and other fields that no decoder
  or restorer reads (`size`, `mode`, `checksum`, `mime_type`, `error`) are
  elided from the serialized-metadata model, since no claim depends on them.
-/

/-- A byte. -/
abbrev Byte := Fin 256

/-- Build a byte from a natural number (values are always in range at use sites). -/
def byteOf (n : Nat) : Byte := ⟨n % 256, Nat.mod_lt _ (by decide)⟩

/-- The NUL character, rejected by the sanitizer. -/
def nulChar : Char := Char.ofNat 0

/-- Whitespace characters as recognised by Python's `str.strip()`. -/
def isSpaceChar (c : Char) : Bool :=
  c = ' ' || c = '\t' || c = '\n' || c = '\r' || c = Char.ofNat 11 || c = Char.ofNat 12

/-- Remove trailing characters satisfying `p` (Python `str.rstrip`). -/
def dropTrailing (p : Char → Bool) (l : List Char) : List Char :=
  (l.reverse.dropWhile p).reverse

/-- Python `str.strip()`: remove leading and trailing whitespace. -/
def stripWs (l : List Char) : List Char :=
  dropTrailing isSpaceChar (l.dropWhile isSpaceChar)

/-- Python `str.rstrip()` (no arguments): remove trailing whitespace. -/
def rstripWs (l : List Char) : List Char :=
  dropTrailing isSpaceChar l

/-- Does the text end with a newline character? -/
def endsWithNl (l : List Char) : Bool :=
  l.getLast? = some '\n'

/-- The lines produced by iterating a Python text stream and stripping the
terminators: pieces between `'\n'` separators, with the final empty piece
dropped when the stream ends in `'\n'` (or is empty). -/
def linesOf (s : List Char) : List (List Char) :=
  let p := s.splitOn '\n'
  if p.getLast? = some [] then p.dropLast else p

/-! ## PathSanitizer (`_sanitize_path`, `file_combiner.py:2633`) -/

/-- Errors surfaced by the restorer: path traversal / NUL injection
(`SecurityError`) and undecodable base64 payloads. -/
inductive RestoreError where
  | securityError
  | invalidBase64
  deriving DecidableEq, Repr

/-- Lexical resolution of relative-path parts against an absolute base:
empty and `.` parts vanish, `..` pops one component (staying put at the
file-system root), anything else descends.  This is `Path.resolve()` on a
symlink-free tree. -/
def resolveSteps (base : List (List Char)) (parts : List (List Char)) : List (List Char) :=
  parts.foldl
    (fun acc part =>
      if part = [] ∨ part = ['.'] then acc
      else if part = ['.', '.'] then acc.dropLast
      else acc ++ [part])
    base

/-- Backslash-to-slash normalisation followed by stripping of leading
slashes, as in `_sanitize_path`. -/
def normalizeRel (raw : List Char) : List Char :=
  (raw.map (fun c => if c = '\\' then '/' else c)).dropWhile (fun c => c = '/')

/-- The resolved join of the normalised relative path onto the output root. -/
def resolvedTarget (baseDir : List (List Char)) (raw : List Char) : List (List Char) :=
  resolveSteps baseDir ((normalizeRel raw).splitOn '/')

/-- `_sanitize_path(base_dir, unsafe_relative_path)`: normalise, reject NUL
bytes, resolve against the (already resolved) root and verify component-wise
containment via `relative_to`. -/
def sanitize_path (baseDir : List (List Char)) (raw : List Char) :
    Except RestoreError (List (List Char)) :=
  let normalized := normalizeRel raw
  if nulChar ∈ normalized then .error .securityError
  else
    let target := resolveSteps baseDir (normalized.splitOn '/')
    if baseDir.isPrefixOf target then .ok target
    else .error .securityError

/-! ## Base64 (`base64.b64encode` / `base64.b64decode`) -/

/-- The base64 alphabet. -/
def b64Alphabet : List Char :=
  "ABCDEFGHIJKLMNOPQRSTUVWXYZabcdefghijklmnopqrstuvwxyz0123456789+/".data

/-- The base64 digit for a 6-bit value. -/
def b64Char (n : Nat) : Char := b64Alphabet.getD n 'A'

/-- The 6-bit value of a base64 digit. -/
def b64CharVal (c : Char) : Option Nat := b64Alphabet.findIdx? (· = c)

/-- `base64.b64encode`: 3 input bytes become 4 digits, with `=` padding. -/
def b64Encode : List Byte → List Char
  | [] => []
  | [a] => [b64Char (a.val / 4), b64Char (a.val % 4 * 16), '=', '=']
  | [a, b] => [b64Char (a.val / 4), b64Char (a.val % 4 * 16 + b.val / 16),
      b64Char (b.val % 16 * 4), '=']
  | a :: b :: c :: rest =>
      b64Char (a.val / 4) :: b64Char (a.val % 4 * 16 + b.val / 16) ::
      b64Char (b.val % 16 * 4 + c.val / 64) :: b64Char (c.val % 64) :: b64Encode rest

/-- `base64.b64decode` on well-formed input: digits are consumed four at a
time, `=` padding closes the stream; malformed input yields `none`
(`binascii.Error`). -/
def b64Decode : List Char → Option (List Byte)
  | [] => some []
  | [_] => none
  | [_, _] => none
  | [_, _, _] => none
  | c1 :: c2 :: c3 :: c4 :: rest =>
    match b64CharVal c1, b64CharVal c2 with
    | some v1, some v2 =>
      if c3 = '=' then
        if c4 = '=' ∧ rest = [] then some [byteOf (v1 * 4 + v2 / 16)] else none
      else
        match b64CharVal c3 with
        | some v3 =>
          if c4 = '=' then
            if rest = [] then
              some [byteOf (v1 * 4 + v2 / 16), byteOf (v2 % 16 * 16 + v3 / 4)]
            else none
          else
            match b64CharVal c4 with
            | some v4 =>
              match b64Decode rest with
              | some bs => some (byteOf (v1 * 4 + v2 / 16) ::
                  byteOf (v2 % 16 * 16 + v3 / 4) :: byteOf (v3 % 4 * 64 + v4) :: bs)
              | none => none
            | none => none
        | none => none
    | _, _ => none

/-! ## Text codecs (strict decode attempts used by `_read_file_content`) -/

/-- Classification of a UTF-8 lead byte: `none` for an invalid lead,
otherwise the number of required continuation bytes, the initial code-point
accumulator, and the admissible range of the first continuation byte.
The bounds encode CPython's strict rejection of overlong forms, surrogates
and code points beyond U+10FFFF. -/
def utf8Lead (n : Nat) : Option (Nat × Nat × Nat × Nat) :=
  if n < 0x80 then some (0, n, 0, 0)
  else if n < 0xC2 then none
  else if n < 0xE0 then some (1, n - 0xC0, 0x80, 0xC0)
  else if n = 0xE0 then some (2, 0, 0xA0, 0xC0)
  else if n = 0xED then some (2, 13, 0x80, 0xA0)
  else if n < 0xF0 then some (2, n - 0xE0, 0x80, 0xC0)
  else if n = 0xF0 then some (3, 0, 0x90, 0xC0)
  else if n = 0xF4 then some (3, 4, 0x80, 0x90)
  else if n < 0xF5 then some (3, n - 0xF0, 0x80, 0xC0)
  else none

/-- Strict UTF-8 decoding, one byte per step.  `need` is the number of
continuation bytes still expected (`0` at a character boundary), `acc` the
partial code point, and `lo`/`hi` the admissible range of the next
continuation byte. -/
def utf8Go : List Byte → Nat → Nat → Nat → Nat → Option (List Char)
  | [], need, _, _, _ => if need = 0 then some [] else none
  | b :: rest, need, acc, lo, hi =>
    if need = 0 then
      match utf8Lead b.val with
      | none => none
      | some (need2, acc2, lo2, hi2) =>
        if need2 = 0 then (utf8Go rest 0 0 0 0).map (fun cs => Char.ofNat acc2 :: cs)
        else utf8Go rest need2 acc2 lo2 hi2
    else
      if lo ≤ b.val ∧ b.val < hi then
        if need = 1 then
          (utf8Go rest 0 0 0 0).map
            (fun cs => Char.ofNat (acc * 64 + (b.val - 0x80)) :: cs)
        else utf8Go rest (need - 1) (acc * 64 + (b.val - 0x80)) 0x80 0xC0
      else none

/-- Strict UTF-8 decoding of a byte string (CPython's `utf-8` codec with
`errors="strict"`). -/
def utf8Decode (bs : List Byte) : Option (List Char) := utf8Go bs 0 0 0 0

/-- UTF-8 encoding of one character. -/
def utf8EncodeChar (c : Char) : List Byte :=
  let n := c.toNat
  if n < 0x80 then [byteOf n]
  else if n < 0x800 then [byteOf (0xC0 + n / 64), byteOf (0x80 + n % 64)]
  else if n < 0x10000 then
    [byteOf (0xE0 + n / 4096), byteOf (0x80 + n / 64 % 64), byteOf (0x80 + n % 64)]
  else
    [byteOf (0xF0 + n / 262144), byteOf (0x80 + n / 4096 % 64),
     byteOf (0x80 + n / 64 % 64), byteOf (0x80 + n % 64)]

/-- UTF-8 encoding of a string (`str.encode("utf-8")`). -/
def utf8EncodeStr (s : List Char) : List Byte := s.flatMap utf8EncodeChar

/-- `latin1` decoding: every byte maps to the code point of the same value,
so decoding never fails. -/
def latin1Decode (bs : List Byte) : List Char := bs.map (fun b => Char.ofNat b.val)

/-- `utf-8-sig` decoding: strip one optional BOM, then strict UTF-8. -/
def utf8SigDecode (bs : List Byte) : Option (List Char) :=
  match bs with
  | b1 :: b2 :: b3 :: rest =>
    if b1.val = 0xEF ∧ b2.val = 0xBB ∧ b3.val = 0xBF then utf8Decode rest
    else utf8Decode bs
  | _ => utf8Decode bs

/-- `cp1252` decoding of one byte: the 0x80–0x9F block is remapped through
the Windows-1252 table and has five undefined values that make decoding
fail; everything else coincides with latin1. -/
def cp1252Char (b : Byte) : Option Char :=
  if b.val < 0x80 ∨ 0xA0 ≤ b.val then some (Char.ofNat b.val)
  else if b.val = 0x80 then some (Char.ofNat 0x20AC)
  else if b.val = 0x82 then some (Char.ofNat 0x201A)
  else if b.val = 0x83 then some (Char.ofNat 0x0192)
  else if b.val = 0x84 then some (Char.ofNat 0x201E)
  else if b.val = 0x85 then some (Char.ofNat 0x2026)
  else if b.val = 0x86 then some (Char.ofNat 0x2020)
  else if b.val = 0x87 then some (Char.ofNat 0x2021)
  else if b.val = 0x88 then some (Char.ofNat 0x02C6)
  else if b.val = 0x89 then some (Char.ofNat 0x2030)
  else if b.val = 0x8A then some (Char.ofNat 0x0160)
  else if b.val = 0x8B then some (Char.ofNat 0x2039)
  else if b.val = 0x8C then some (Char.ofNat 0x0152)
  else if b.val = 0x8E then some (Char.ofNat 0x017D)
  else if b.val = 0x91 then some (Char.ofNat 0x2018)
  else if b.val = 0x92 then some (Char.ofNat 0x2019)
  else if b.val = 0x93 then some (Char.ofNat 0x201C)
  else if b.val = 0x94 then some (Char.ofNat 0x201D)
  else if b.val = 0x95 then some (Char.ofNat 0x2022)
  else if b.val = 0x96 then some (Char.ofNat 0x2013)
  else if b.val = 0x97 then some (Char.ofNat 0x2014)
  else if b.val = 0x98 then some (Char.ofNat 0x02DC)
  else if b.val = 0x99 then some (Char.ofNat 0x2122)
  else if b.val = 0x9A then some (Char.ofNat 0x0161)
  else if b.val = 0x9B then some (Char.ofNat 0x203A)
  else if b.val = 0x9C then some (Char.ofNat 0x0153)
  else if b.val = 0x9E then some (Char.ofNat 0x017E)
  else if b.val = 0x9F then some (Char.ofNat 0x0178)
  else none

/-- `cp1252` decoding of a byte string. -/
def cp1252Decode (bs : List Byte) : Option (List Char) := bs.mapM cp1252Char

/-- Universal-newline translation performed by Python text-mode reads:
`\r\n` and lone `\r` both become `\n`. -/
def translateNl : List Char → List Char
  | [] => []
  | '\r' :: '\n' :: rest => '\n' :: translateNl rest
  | '\r' :: rest => '\n' :: translateNl rest
  | c :: rest => c :: translateNl rest

/-! ## ContentCodec (`_read_file_content`, `file_combiner.py:1159`) -/

/-- The mutable metadata fields consulted by the archive decoders and the
restorer.  Fields that no decoder or restorer reads (`size`, `mtime`,
`mode`, `checksum`, `mime_type`, `error`) are elided. -/
structure MetaR where
  path : List Char
  encoding : List Char
  is_binary : Bool
  ends_with_newline : Bool
  deriving DecidableEq, Repr

/-- The ordered encoding candidates of `_read_file_content`:
`[utf-8, utf-8-sig, latin1, cp1252, iso-8859-1]`. -/
def textEncodings : List (List Char × (List Byte → Option (List Char))) :=
  [("utf-8".data, utf8Decode),
   ("utf-8-sig".data, utf8SigDecode),
   ("latin1".data, fun bs => some (latin1Decode bs)),
   ("cp1252".data, cp1252Decode),
   ("iso-8859-1".data, fun bs => some (latin1Decode bs))]

/-- The trial-decode loop of `_read_file_content`: accept the first encoding
that decodes without error, record its name and the trailing-newline flag,
and return the UTF-8 re-encoding of the (newline-translated) text. -/
def tryTextEncodings :
    List (List Char × (List Byte → Option (List Char))) → List Byte → MetaR →
    Option (List Byte × MetaR)
  | [], _, _ => none
  | (name, dec) :: rest, bs, m =>
    match dec bs with
    | some text =>
      let t := translateNl text
      some (utf8EncodeStr t,
        { m with encoding := name, ends_with_newline := endsWithNl t })
    | none => tryTextEncodings rest bs m

/-- ASCII bytes of a base64 digit string. -/
def asciiBytes (cs : List Char) : List Byte := cs.map (fun c => byteOf c.toNat)

/-- `_read_file_content`: binary records are read raw and base64-encoded;
text records go through the encoding trial loop; if every candidate fails
the record is silently flipped to binary/base64. -/
def read_file_content (bs : List Byte) (m : MetaR) : Option (List Byte × MetaR) :=
  if m.is_binary then some (asciiBytes (b64Encode bs), m)
  else
    match tryTextEncodings textEncodings bs m with
    | some r => some r
    | none => some (asciiBytes (b64Encode bs),
        { m with is_binary := true, encoding := "base64".data })

/-! ## The txt wire format (`_write_txt_streaming` / `_parse_and_restore_files`) -/

/-- The txt format separator line `=== FILE_SEPARATOR ===`. -/
def sepMarker : List Char := "=== FILE_SEPARATOR ===".data

/-- The `FILE_METADATA:` line marker. -/
def metaMarker : List Char := "FILE_METADATA:".data

/-- The `ENCODING:` line marker. -/
def encMarker : List Char := "ENCODING:".data

/-- The single-line JSON serialization of a record's metadata
(`json.dumps(asdict(metadata))`), restricted to the fields that the decoder
and restorer consult; paths are rendered verbatim (`json.dumps` escaping is
the identity on printable ASCII without `"` and `\`). -/
def metaJson (m : MetaR) : List Char :=
  "\x7b\"path\": \"".data ++ (m.path
  ++ ("\", \"encoding\": \"".data ++ (m.encoding
  ++ ("\", \"is_binary\": ".data ++ ((if m.is_binary then "true".data else "false".data)
  ++ (", \"ends_with_newline\": ".data
  ++ ((if m.ends_with_newline then "true".data else "false".data)
  ++ "\x7d".data)))))))

/-- Consume an expected literal chunk. -/
def expectChars : List Char → List Char → Option (List Char)
  | [], s => some s
  | _ :: _, [] => none
  | c :: p, x :: s => if x = c then expectChars p s else none

/-- Scan up to the next `"` quote, returning the scanned chunk and the rest. -/
def scanToQuote : List Char → Option (List Char × List Char)
  | [] => none
  | c :: s =>
    if c = '"' then some ([], s)
    else (scanToQuote s).map (fun r => (c :: r.1, r.2))

/-- Parse a JSON boolean literal. -/
def parseBoolLit (s : List Char) : Option (Bool × List Char) :=
  match expectChars "true".data s with
  | some r => some (true, r)
  | none =>
    match expectChars "false".data s with
    | some r => some (false, r)
    | none => none

/-- `json.loads` on a metadata object of the shape emitted by `metaJson`;
any other input fails (the decoder treats a parse failure as a warning and
keeps the previous pending record). -/
def parseMetaJson (s : List Char) : Option MetaR :=
  (expectChars "\x7b\"path\": \"".data s).bind fun s1 =>
  (scanToQuote s1).bind fun r1 =>
  (expectChars ", \"encoding\": \"".data r1.2).bind fun s3 =>
  (scanToQuote s3).bind fun r2 =>
  (expectChars ", \"is_binary\": ".data r2.2).bind fun s5 =>
  (parseBoolLit s5).bind fun r3 =>
  (expectChars ", \"ends_with_newline\": ".data r3.2).bind fun s7 =>
  (parseBoolLit s7).bind fun r4 =>
  (expectChars "\x7d".data r4.2).bind fun s9 =>
  if s9 = [] then some ⟨r1.1, r2.1, r3.1, r4.1⟩ else none

/-- The `FILE_METADATA: <json>` line of one txt entry. -/
def metaLineOf (m : MetaR) : List Char := metaMarker ++ ' ' :: metaJson m

/-- The `ENCODING: <name>` line of one txt entry. -/
def encLineOf (m : MetaR) : List Char := encMarker ++ ' ' :: m.encoding

/-- `write_txt_entry` (inside `_write_txt_streaming`): separator line,
metadata line, encoding line, the payload characters, then a newline. -/
def write_txt_entry (m : MetaR) (payload : List Char) : List Char :=
  sepMarker ++ '\n' :: metaLineOf m ++ '\n' :: encLineOf m ++ '\n' :: payload ++ ['\n']

/-! ## FileRestorer (`_restore_file_sync`, `file_combiner.py:2565`) -/

/-- A restored file: its absolute destination path (components) and bytes. -/
structure FileWrite where
  dest : List (List Char)
  data : List Byte
  deriving DecidableEq, Repr

/-- Content reconstruction of `_restore_file_sync`: an empty line list gives
empty content; otherwise lines are joined with `\n` and the trailing newline
is appended or stripped according to `ends_with_newline`. -/
def reconstructContent (m : MetaR) (content_lines : List (List Char)) : List Char :=
  if content_lines = [] then []
  else
    let content := List.intercalate ['\n'] content_lines
    if m.ends_with_newline && !(endsWithNl content) then content ++ ['\n']
    else if !m.ends_with_newline && endsWithNl content then
      dropTrailing (fun c => c = '\n') content
    else content

/-- `_restore_file_sync`: sanitize the path (`SecurityError` on escape),
reconstruct the content, then either base64-decode it (binary records or
`base64` encoding) or encode the text as UTF-8. -/
def restore_file_sync (root : List (List Char)) (m : MetaR)
    (encoding : Option (List Char)) (content_lines : List (List Char)) :
    Except RestoreError FileWrite :=
  match sanitize_path root m.path with
  | .error e => .error e
  | .ok dest =>
    let content := reconstructContent m content_lines
    if encoding = some "base64".data ∨ m.is_binary then
      match b64Decode content with
      | some bytes => .ok ⟨dest, bytes⟩
      | none => .error .invalidBase64
    else .ok ⟨dest, utf8EncodeStr content⟩

/-! ## The txt decoder state machine (`_parse_and_restore_files`) -/

/-- Parser state: pending record, pending encoding, captured content lines,
content-capture mode, plus the restored-file count and the writes to disk. -/
structure TxtState where
  meta : Option MetaR
  enc : Option (List Char)
  content : List (List Char)
  in_content : Bool
  files_restored : Nat
  writes : List FileWrite
  deriving Repr

/-- Flush the pending record to the restorer (a failed restore is logged
and skipped: no write, no count, parsing continues). -/
def txtFlush (root : List (List Char)) (s : TxtState) : TxtState :=
  match s.meta with
  | some m =>
    match restore_file_sync root m s.enc s.content with
    | .ok w =>
      { s with files_restored := s.files_restored + 1, writes := s.writes ++ [w] }
    | .error _ => s
  | none => s

/-- One line of `_parse_and_restore_files`: strip the terminator, then
dispatch on separator / metadata / encoding markers, skip header noise
outside content mode, and capture everything else as content. -/
def txtStep (root : List (List Char)) (s : TxtState) (rawLine : List Char) : TxtState :=
  let line := dropTrailing (fun c => c = '\r') rawLine
  if line = sepMarker then
    let s2 := txtFlush root s
    { s2 with meta := none, enc := none, content := [], in_content := false }
  else if metaMarker.isPrefixOf line then
    match parseMetaJson (stripWs (line.drop metaMarker.length)) with
    | some m => { s with meta := some m, in_content := false }
    | none => s
  else if encMarker.isPrefixOf line then
    { s with enc := some (stripWs (line.drop encMarker.length)), in_content := true }
  else if !s.in_content && (['#'].isPrefixOf line || stripWs line = []) then s
  else if s.in_content && s.meta.isSome then { s with content := s.content ++ [line] }
  else s

/-- `_parse_and_restore_files`: run the line machine over the stream and
flush the final pending record; returns the restored count and the writes. -/
def parse_and_restore_files (root : List (List Char)) (stream : List Char) :
    Nat × List FileWrite :=
  let final := (linesOf stream).foldl (txtStep root) ⟨none, none, [], false, 0, []⟩
  let final2 := txtFlush root final
  (final2.files_restored, final2.writes)

/-- `split_files` on a txt archive: per-entry failures never abort the
parse, so the operation reports success. -/
def split_files_txt (root : List (List Char)) (stream : List Char) :
    Bool × Nat × List FileWrite :=
  (true, parse_and_restore_files root stream)

/-! ## Read-ahead streaming writer (`_write_with_prefetch`,
`_write_json_streaming`, `file_combiner.py:1363/1491`)

The asyncio pipeline awaits the prefetched read of entry `i` before writing
it, and only then awaits the read of entry `i+1`; the sink is written
synchronously inside the loop, so the emitted stream is deterministic.  The
model keeps the loop structure (the prefetched value for the next entry is
produced before the current entry is written) with reads as pure functions;
`read` returns the possibly mutated record together with the payload, and
`none` models a failed content read. -/

/-- The loop body of `_write_with_prefetch`, carrying the prefetched content
of the current entry. -/
def writePrefetchGo {E C O : Type} (read : E → Option C)
    (write_entry_func : E → C → List O) : Option C → E → List E → List O
  | pref, cur, [] =>
    match pref with
    | some c => write_entry_func cur c
    | none => []
  | pref, cur, e2 :: rest =>
    (match pref with
     | some c => write_entry_func cur c
     | none => []) ++ writePrefetchGo read write_entry_func (read e2) e2 rest

/-- `_write_with_prefetch`: start the read of the first entry, then loop:
await the current content, issue the next read, write the current entry. -/
def write_with_prefetch {E C O : Type} (read : E → Option C)
    (write_entry_func : E → C → List O) : List E → List O
  | [] => []
  | e :: rest => writePrefetchGo read write_entry_func (read e) e rest

/-- The purely sequential writer the spec compares against: read then write
each entry in turn, omitting entries whose read failed. -/
def write_sequential {E C O : Type} (read : E → Option C)
    (write_entry_func : E → C → List O) (entries : List E) : List O :=
  entries.flatMap (fun e =>
    match read e with
    | some c => write_entry_func e c
    | none => [])

/-- The entry loop of `_write_json_streaming`: same prefetch pattern, plus
the leading-comma bookkeeping (`first`), with failed reads skipped before
the comma logic. -/
def writeJsonGo {E C : Type} (read : E → Option C) (render : E → C → List Char) :
    Option C → E → List E → Bool → List Char
  | pref, cur, [], first =>
    match pref with
    | some c => (if !first then ",\n".data else []) ++ render cur c
    | none => []
  | pref, cur, e2 :: rest, first =>
    match pref with
    | some c =>
      ((if !first then ",\n".data else []) ++ render cur c)
        ++ writeJsonGo read render (read e2) e2 rest false
    | none => writeJsonGo read render (read e2) e2 rest first

/-- The file-entry stream of `_write_json_streaming` (header and footer
elided: they do not depend on the entries' contents). -/
def write_json_entries {E C : Type} (read : E → Option C)
    (render : E → C → List Char) : List E → List Char
  | [] => []
  | e :: rest => writeJsonGo read render (read e) e rest true

/-! ## Entry ordering in `combine_files` (`file_combiner.py:967`)

`file_entries.sort(key=lambda x: x[0].path)` sorts the gathered
`(metadata, path)` tuples by the record's path string (Python string
comparison: lexicographic by code point) with a stable sort, and the
streaming writers then emit entries in list order. -/

/-- Python string `<=` on paths: lexicographic by code point. -/
def pathLeChars : List Char → List Char → Bool
  | [], _ => true
  | _ :: _, [] => false
  | a :: as, b :: bs =>
    if a.toNat < b.toNat then true
    else if b.toNat < a.toNat then false
    else pathLeChars as bs

/-- `file_entries.sort(key=lambda x: x[0].path)`: a stable sort by path. -/
def sortEntries {P : Type} (entries : List (MetaR × P)) : List (MetaR × P) :=
  entries.mergeSort (fun x y => pathLeChars x.1.path y.1.path)

/-! ## Input-format auto-detection (`_detect_input_format`,
`file_combiner.py:1802`) -/

/-- The extension table of `_detect_input_format` (applied after `.gz`
inner-extension resolution), defaulting to txt. -/
def formatFromSuffix (suffix : List Char) : List Char :=
  if suffix = ".json".data then "json".data
  else if suffix = ".xml".data then "xml".data
  else if suffix = ".yaml".data then "yaml".data
  else if suffix = ".yml".data then "yaml".data
  else if suffix = ".md".data then "markdown".data
  else if suffix = ".markdown".data then "markdown".data
  else if suffix = ".txt".data then "txt".data
  else "txt".data

/-- Python `needle in haystack` on strings. -/
def containsSeq (pat l : List Char) : Bool :=
  l.tails.any (fun t => pat.isPrefixOf t)

/-- The content sniffing of `_detect_input_format`: the first 100 decoded
characters, stripped, matched against the format fingerprints. -/
def sniffContent (text : List Char) : List Char :=
  let first_chars := stripWs (text.take 100)
  if ("\x7b".data : List Char).isPrefixOf first_chars then "json".data
  else if ("<?xml".data : List Char).isPrefixOf first_chars
      ∨ ("<file_archive".data : List Char).isPrefixOf first_chars then "xml".data
  else if ("# Combined Files Archive".data : List Char).isPrefixOf first_chars
      ∧ containsSeq "```".data first_chars then "markdown".data
  else if ("# Combined Files Archive".data : List Char).isPrefixOf first_chars
      ∨ (("version:".data : List Char).isPrefixOf first_chars
        ∧ containsSeq "files:".data first_chars) then "yaml".data
  else "txt".data

/-- `_detect_input_format`: extension first; inputs mapping to txt are
sniffed by content. -/
def detect_input_format (suffix text : List Char) : List Char :=
  let detected := formatFromSuffix suffix
  if detected = "txt".data then sniffContent text else detected

/-- The detection rules exactly as claim C8 states them (for comparison
with the implementation): `\x7b` → json, `<?xml`/`<file_archive` → xml,
`# Combined Files Archive` plus backticks → markdown, `version:` plus
`files:` → yaml, anything else txt. -/
def detectSpecC8 (suffix text : List Char) : List Char :=
  let detected := formatFromSuffix suffix
  if detected = "txt".data then
    let first_chars := stripWs (text.take 100)
    if ("\x7b".data : List Char).isPrefixOf first_chars then "json".data
    else if ("<?xml".data : List Char).isPrefixOf first_chars
        ∨ ("<file_archive".data : List Char).isPrefixOf first_chars then "xml".data
    else if ("# Combined Files Archive".data : List Char).isPrefixOf first_chars
        ∧ containsSeq "```".data first_chars then "markdown".data
    else if ("version:".data : List Char).isPrefixOf first_chars
        ∧ containsSeq "files:".data first_chars then "yaml".data
    else "txt".data
  else detected

/-- The suffix table written as an association list, for the amended rules. -/
def suffixFormatTable : List (List Char × List Char) :=
  [(".json".data, "json".data), (".xml".data, "xml".data),
   (".yaml".data, "yaml".data), (".yml".data, "yaml".data),
   (".md".data, "markdown".data), (".markdown".data, "markdown".data),
   (".txt".data, "txt".data)]

/-- The amended sniff rules: a leading `# Combined Files Archive` with
backticks is markdown, without backticks it is yaml; `version:` with
`files:` is also yaml; else txt. -/
def sniffSpecAmended (fc : List Char) : List Char :=
  if ("\x7b".data : List Char).isPrefixOf fc then "json".data
  else if ("<?xml".data : List Char).isPrefixOf fc then "xml".data
  else if ("<file_archive".data : List Char).isPrefixOf fc then "xml".data
  else if ("# Combined Files Archive".data : List Char).isPrefixOf fc
      ∧ containsSeq "```".data fc then "markdown".data
  else if (("# Combined Files Archive".data : List Char).isPrefixOf fc
        ∧ ¬ containsSeq "```".data fc = true)
      ∨ (("version:".data : List Char).isPrefixOf fc
        ∧ containsSeq "files:".data fc) then "yaml".data
  else "txt".data

/-- The amended detection rules: extension decides via the table (a suffix
mapping to txt — including `.txt` itself — is sniffed), and the sniff uses
the amended fingerprints. -/
def detectSpecC8Amended (suffix text : List Char) : List Char :=
  match suffixFormatTable.lookup suffix with
  | some fmt =>
    if fmt = "txt".data then sniffSpecAmended (stripWs (text.take 100)) else fmt
  | none => sniffSpecAmended (stripWs (text.take 100))

/-! ## Markdown fence safety (`_get_safe_fence`, `file_combiner.py:2677`;
`_parse_markdown_archive`, `file_combiner.py:2422`) -/

/-- The backtick character, U+0060. -/
def backquoteChar : Char := Char.ofNat 96

/-- The backtick-run scan of `_get_safe_fence`: `cur` is the current run,
`maxB` the longest run seen. -/
def maxBtGo : List Char → Nat → Nat → Nat
  | [], _, maxB => maxB
  | c :: rest, cur, maxB =>
    if c = backquoteChar then maxBtGo rest (cur + 1) (max maxB (cur + 1))
    else maxBtGo rest 0 maxB

/-- The longest run of consecutive backticks in the content. -/
def maxBacktickRun (content : List Char) : Nat := maxBtGo content 0 0

/-- `_get_safe_fence`: lengthen the ``` fence to `run + 1` backticks when
the content has a backtick run of at least the base fence length 3. -/
def get_safe_fence (content : List Char) : List Char :=
  let fence := "```".data
  if fence.length ≤ maxBacktickRun content then
    List.replicate (maxBacktickRun content + 1) backquoteChar
  else fence

/-- The non-binary entry block of `_write_markdown_streaming`
(`write_md_entry`): header, display metadata lines, then the fenced code
block.  The display renderings of the size and mtime are passed as opaque
newline-free fragments; the parser ignores those lines. -/
def write_md_entry (m : MetaR) (sizeStr timeStr lang content : List Char) :
    List Char :=
  "## ".data ++ m.path ++ "\n\n".data
  ++ "**Size:** ".data ++ sizeStr ++ "  \n".data
  ++ "**Modified:** ".data ++ timeStr ++ "  \n".data
  ++ "**Encoding:** ".data ++ m.encoding ++ "  \n".data
  ++ "**Binary:** No  \n\n".data
  ++ get_safe_fence content ++ lang ++ "\n".data
  ++ content ++ "\n".data ++ get_safe_fence content ++ "\n\n".data

/-- One parsed markdown entry. -/
structure MdFile where
  path : List Char
  encoding : List Char
  is_binary : Bool
  content_lines : List (List Char)
  deriving DecidableEq, Repr

/-- Parser state of `_parse_markdown_archive`. -/
structure MdState where
  files : List MdFile
  cur : Option (List Char)
  in_code_block : Bool
  code_fence : Option (List Char)
  content : List (List Char)
  encoding : List Char
  is_binary : Bool
  deriving Repr

/-- `line.split(":", 1)[1]`: everything after the first colon. -/
def afterFirstColon (l : List Char) : List Char :=
  (l.dropWhile (fun c => ¬ c = ':')).drop 1

/-- One line of `_parse_markdown_archive`: `## ` headers outside code
blocks delimit files (the Table of Contents pseudo-section is skipped);
inside a file, `**Encoding:**` / `**Binary:**` lines update the pending
record (unconditionally — the source does not guard these on being outside
a fence), a ```-led line outside a block opens a fence remembered as its
leading backtick run, a line whose rstrip equals that run closes it, and
everything else inside the block is captured verbatim. -/
def mdStep (s : MdState) (line : List Char) : MdState :=
  if ("## ".data : List Char).isPrefixOf line ∧ s.in_code_block = false then
    let files2 :=
      match s.cur with
      | some p => s.files ++ [⟨p, s.encoding, s.is_binary, s.content⟩]
      | none => s.files
    let file_path := stripWs (line.drop 3)
    if file_path = "Table of Contents".data then
      { s with files := files2, cur := none }
    else
      { files := files2,
        cur := some file_path,
        in_code_block := false,
        code_fence := none,
        content := [],
        encoding := "utf-8".data,
        is_binary := false }
  else if s.cur.isSome then
    let s1 :=
      if ("**Encoding:**".data : List Char).isPrefixOf line then
        let enc := dropTrailing (fun c => c = ' ') (stripWs (afterFirstColon line))
        { s with encoding := if enc = [] then "utf-8".data else enc }
      else if ("**Binary:**".data : List Char).isPrefixOf line then
        { s with is_binary := containsSeq "Yes".data line }
      else s
    if s1.in_code_block = false ∧ ("```".data : List Char).isPrefixOf line then
      { s1 with
        in_code_block := true,
        code_fence := some ((rstripWs line).takeWhile (fun c => c = backquoteChar)) }
    else if s1.in_code_block = true ∧ s1.code_fence = some (rstripWs line) then
      { s1 with in_code_block := false, code_fence := none }
    else if s1.in_code_block then
      { s1 with content := s1.content ++ [line] }
    else s1
  else s

/-- `_parse_markdown_archive`: split the document on `\n`, run the line
machine, and flush the last pending file. -/
def parse_markdown_archive (stream : List Char) : List MdFile :=
  let lines := stream.splitOn '\n'
  let final := lines.foldl mdStep ⟨[], none, false, none, [], "utf-8".data, false⟩
  match final.cur with
  | some p => final.files ++ [⟨p, final.encoding, final.is_binary, final.content⟩]
  | none => final.files

/-! Helper lemmas for the sanitizer. -/

theorem nul_mem_normalizeRel_iff (raw : List Char) :
    nulChar ∈ normalizeRel raw ↔ nulChar ∈ raw := by
  unfold normalizeRel
  constructor
  · intro h
    have hsub : nulChar ∈ raw.map (fun c => if c = '\\' then '/' else c) :=
      (List.dropWhile_sublist _).mem h
    rcases List.mem_map.mp hsub with ⟨c, hc, hcmap⟩
    by_cases hb : c = '\\'
    · rw [if_pos hb] at hcmap
      exact absurd hcmap (by decide)
    · rw [if_neg hb] at hcmap
      subst hcmap; exact hc
  · intro h
    induction raw with
    | nil => simp at h
    | cons a l ih =>
      rcases List.mem_cons.mp h with h | h
      · subst h
        simp only [List.map_cons]
        have hne : (if nulChar = '\\' then '/' else nulChar) = nulChar := by decide
        rw [hne]
        rw [List.dropWhile_cons]
        have : ¬ (nulChar = '/') := by decide
        simp [this]
      · simp only [List.map_cons]
        rw [List.dropWhile_cons]
        by_cases hd : ((if a = '\\' then '/' else a) = '/')
        · simp only [hd, decide_True, if_true]
          exact ih h
        · simp only [hd, decide_False, if_false]
          exact List.mem_cons_of_mem _ (by
            have := ih h
            exact (List.dropWhile_sublist _).mem this)

theorem sanitize_path_ok_imp (base : List (List Char)) (raw : List Char)
    (p : List (List Char)) (h : sanitize_path base raw = .ok p) :
    p = resolvedTarget base raw ∧ base <+: p := by
  unfold sanitize_path at h
  by_cases hnul : nulChar ∈ normalizeRel raw
  · rw [if_pos hnul] at h; cases h
  · rw [if_neg hnul] at h
    by_cases hpre : base.isPrefixOf (resolveSteps base ((normalizeRel raw).splitOn '/'))
    · rw [if_pos hpre] at h
      cases h
      exact ⟨rfl, List.isPrefixOf_iff_prefix.mp hpre⟩
    · rw [if_neg hpre] at h; cases h

/-- C1: `_sanitize_path` rejects NUL bytes; otherwise, after
backslash-normalisation, slash-stripping, joining and resolving, it errors
exactly when the resolved result is not component-wise contained in the
root (so `../` escapes are rejected), and `/etc/passwd` is accepted with a
result under the root. -/
theorem sanitize_path_correct (base : List (List Char)) (raw : List Char) :
    (nulChar ∈ raw → sanitize_path base raw = .error .securityError)
    ∧ (nulChar ∉ raw →
        (sanitize_path base raw = .error .securityError ↔
          ¬ base <+: resolvedTarget base raw))
    ∧ (nulChar ∉ raw → base <+: resolvedTarget base raw →
        sanitize_path base raw = .ok (resolvedTarget base raw))
    ∧ sanitize_path base "/etc/passwd".data
        = .ok (base ++ ["etc".data, "passwd".data]) := by
  refine ⟨?_, ?_, ?_, ?_⟩
  · intro h
    unfold sanitize_path
    rw [if_pos ((nul_mem_normalizeRel_iff raw).mpr h)]
  · intro h
    unfold sanitize_path
    rw [if_neg (fun hc => h ((nul_mem_normalizeRel_iff raw).mp hc))]
    by_cases hpre : base.isPrefixOf (resolveSteps base ((normalizeRel raw).splitOn '/'))
    · rw [if_pos hpre]
      simp only [resolvedTarget]
      constructor
      · intro hcontra; cases hcontra
      · intro hnp; exact absurd (List.isPrefixOf_iff_prefix.mp hpre) hnp
    · rw [if_neg hpre]
      simp only [resolvedTarget]
      constructor
      · intro _
        exact fun hp => hpre (List.isPrefixOf_iff_prefix.mpr hp)
      · intro _; trivial
  · intro h hpre
    unfold sanitize_path
    rw [if_neg (fun hc => h ((nul_mem_normalizeRel_iff raw).mp hc))]
    unfold resolvedTarget at hpre ⊢
    rw [if_pos (List.isPrefixOf_iff_prefix.mpr hpre)]
  · have hn : normalizeRel "/etc/passwd".data = "etc/passwd".data := by decide
    have hs : ("etc/passwd".data).splitOn '/' = ["etc".data, "passwd".data] := by decide
    unfold sanitize_path
    rw [hn]
    rw [if_neg (by decide : ¬ (nulChar ∈ "etc/passwd".data))]
    rw [hs]
    have hr : resolveSteps base ["etc".data, "passwd".data]
        = base ++ ["etc".data, "passwd".data] := by
      unfold resolveSteps
      simp only [List.foldl]
      rw [if_neg (by decide), if_neg (by decide), if_neg (by decide), if_neg (by decide)]
      simp
    rw [hr, if_pos (List.isPrefixOf_iff_prefix.mpr (List.prefix_append _ _))]

/-- Witness for C1 at a concrete root and inputs. -/
theorem sanitize_path_correct_witness :
    sanitize_path ["out".data] "../../x".data = .error .securityError
    ∧ sanitize_path ["out".data] "/etc/passwd".data
        = .ok (["out".data] ++ ["etc".data, "passwd".data]) := by
  refine ⟨?_, (sanitize_path_correct ["out".data] "../../x".data).2.2.2⟩
  exact ((sanitize_path_correct ["out".data] "../../x".data).2.1 (by decide)).mpr
    (by decide)

/-! Base64 and codec lemmas. -/

theorem b64CharVal_b64Char : ∀ v < 64, b64CharVal (b64Char v) = some v := by decide

theorem b64Char_ne_pad : ∀ v < 64, ¬ (b64Char v = '=') := by decide

theorem b64Decode_b64Encode : ∀ bs : List Byte, b64Decode (b64Encode bs) = some bs
  | [] => rfl
  | [a] => by
    have ha := a.isLt
    simp only [b64Encode, b64Decode]
    rw [b64CharVal_b64Char (a.val / 4) (by omega),
      b64CharVal_b64Char (a.val % 4 * 16) (by omega)]
    have e1 : byteOf (a.val / 4 * 4 + a.val % 4 * 16 / 16) = a := by
      refine Fin.ext ?_
      simp only [byteOf]
      omega
    simp only [if_pos rfl, and_self, reduceIte, e1]
  | [a, b] => by
    have ha := a.isLt
    have hb := b.isLt
    simp only [b64Encode, b64Decode]
    rw [b64CharVal_b64Char (a.val / 4) (by omega),
      b64CharVal_b64Char (a.val % 4 * 16 + b.val / 16) (by omega)]
    simp only [if_neg (b64Char_ne_pad (b.val % 16 * 4) (by omega))]
    rw [b64CharVal_b64Char (b.val % 16 * 4) (by omega)]
    have e1 : byteOf (a.val / 4 * 4 + (a.val % 4 * 16 + b.val / 16) / 16) = a := by
      refine Fin.ext ?_
      simp only [byteOf]
      omega
    have e2 : byteOf ((a.val % 4 * 16 + b.val / 16) % 16 * 16 + b.val % 16 * 4 / 4) = b := by
      refine Fin.ext ?_
      simp only [byteOf]
      omega
    simp only [if_pos rfl, reduceIte, e1, e2]
  | [a, b, c] => by
    have ha := a.isLt
    have hb := b.isLt
    have hc := c.isLt
    simp only [b64Encode, b64Decode]
    rw [b64CharVal_b64Char (a.val / 4) (by omega),
      b64CharVal_b64Char (a.val % 4 * 16 + b.val / 16) (by omega)]
    simp only [if_neg (b64Char_ne_pad (b.val % 16 * 4 + c.val / 64) (by omega))]
    rw [b64CharVal_b64Char (b.val % 16 * 4 + c.val / 64) (by omega)]
    simp only [if_neg (b64Char_ne_pad (c.val % 64) (by omega))]
    rw [b64CharVal_b64Char (c.val % 64) (by omega)]
    have e1 : byteOf (a.val / 4 * 4 + (a.val % 4 * 16 + b.val / 16) / 16) = a := by
      refine Fin.ext ?_
      simp only [byteOf]
      omega
    have e2 : byteOf ((a.val % 4 * 16 + b.val / 16) % 16 * 16
        + (b.val % 16 * 4 + c.val / 64) / 4) = b := by
      refine Fin.ext ?_
      simp only [byteOf]
      omega
    have e3 : byteOf ((b.val % 16 * 4 + c.val / 64) % 4 * 64 + c.val % 64) = c := by
      refine Fin.ext ?_
      simp only [byteOf]
      omega
    simp only [b64Decode, e1, e2, e3]
  | a :: b :: c :: d :: rest => by
    have ha := a.isLt
    have hb := b.isLt
    have hc := c.isLt
    have ih := b64Decode_b64Encode (d :: rest)
    simp only [b64Encode, b64Decode]
    rw [b64CharVal_b64Char (a.val / 4) (by omega),
      b64CharVal_b64Char (a.val % 4 * 16 + b.val / 16) (by omega)]
    simp only [if_neg (b64Char_ne_pad (b.val % 16 * 4 + c.val / 64) (by omega))]
    rw [b64CharVal_b64Char (b.val % 16 * 4 + c.val / 64) (by omega)]
    simp only [if_neg (b64Char_ne_pad (c.val % 64) (by omega))]
    rw [b64CharVal_b64Char (c.val % 64) (by omega)]
    have hrw : b64Decode (b64Encode (d :: rest)) = some (d :: rest) := ih
    simp only [b64Encode] at hrw
    rw [hrw]
    have e1 : byteOf (a.val / 4 * 4 + (a.val % 4 * 16 + b.val / 16) / 16) = a := by
      refine Fin.ext ?_
      simp only [byteOf]
      omega
    have e2 : byteOf ((a.val % 4 * 16 + b.val / 16) % 16 * 16
        + (b.val % 16 * 4 + c.val / 64) / 4) = b := by
      refine Fin.ext ?_
      simp only [byteOf]
      omega
    have e3 : byteOf ((b.val % 16 * 4 + c.val / 64) % 4 * 64 + c.val % 64) = c := by
      refine Fin.ext ?_
      simp only [byteOf]
      omega
    simp only [e1, e2, e3]

theorem utf8Decode_bom (rest : List Byte) :
    utf8Decode (⟨0xEF, by decide⟩ :: ⟨0xBB, by decide⟩ :: ⟨0xBF, by decide⟩ :: rest)
      = (utf8Decode rest).map (fun cs => Char.ofNat 0xFEFF :: cs) := by
  unfold utf8Decode
  simp [utf8Go, utf8Lead]

theorem utf8SigDecode_none_of_utf8Decode_none (bs : List Byte)
    (h : utf8Decode bs = none) : utf8SigDecode bs = none := by
  unfold utf8SigDecode
  match bs, h with
  | [], h => exact h
  | [b1], h => exact h
  | [b1, b2], h => exact h
  | b1 :: b2 :: b3 :: rest, h =>
    show (if b1.val = 0xEF ∧ b2.val = 0xBB ∧ b3.val = 0xBF then utf8Decode rest
      else utf8Decode (b1 :: b2 :: b3 :: rest)) = none
    by_cases hc : b1.val = 0xEF ∧ b2.val = 0xBB ∧ b3.val = 0xBF
    · rw [if_pos hc]
      obtain ⟨h1, h2, h3⟩ := hc
      have e1 : b1 = ⟨0xEF, by decide⟩ := Fin.ext h1
      have e2 : b2 = ⟨0xBB, by decide⟩ := Fin.ext h2
      have e3 : b3 = ⟨0xBF, by decide⟩ := Fin.ext h3
      subst e1; subst e2; subst e3
      rw [utf8Decode_bom] at h
      exact Option.map_eq_none.mp h
    · rw [if_neg hc]
      exact h

/-- C5: for text records, `_read_file_content` tries the candidate encodings
in order `[utf-8, utf-8-sig, latin1, cp1252, iso-8859-1]`, accepts the first
that decodes, records the encoding name and the trailing-newline flag, and
returns the UTF-8 re-encoding; when the whole trial loop fails it flips the
record to binary/base64 and returns the base64 payload instead of raising.
(A UTF-8 failure also fails `utf-8-sig`, so the next accepted candidate is
`latin1`.) -/
theorem read_file_content_correct (bs : List Byte) (m : MetaR)
    (hm : m.is_binary = false) :
    (∀ t, utf8Decode bs = some t →
        read_file_content bs m = some (utf8EncodeStr (translateNl t),
          { m with encoding := "utf-8".data,
                   ends_with_newline := endsWithNl (translateNl t) }))
    ∧ (utf8Decode bs = none →
        read_file_content bs m = some (utf8EncodeStr (translateNl (latin1Decode bs)),
          { m with encoding := "latin1".data,
                   ends_with_newline := endsWithNl (translateNl (latin1Decode bs)) }))
    ∧ (tryTextEncodings textEncodings bs m = none →
        read_file_content bs m = some (asciiBytes (b64Encode bs),
          { m with is_binary := true, encoding := "base64".data }))
    ∧ (read_file_content bs m).isSome := by
  refine ⟨?_, ?_, ?_, ?_⟩
  · intro t h
    simp [read_file_content, hm, textEncodings, tryTextEncodings, h]
  · intro h
    have hsig := utf8SigDecode_none_of_utf8Decode_none bs h
    simp [read_file_content, hm, textEncodings, tryTextEncodings, h, hsig]
  · intro h
    simp [read_file_content, hm, h]
  · cases h : tryTextEncodings textEncodings bs m <;>
      simp [read_file_content, hm, h]

/-- Witness for C5: an ASCII file decodes as utf-8; the recorded encoding and
newline flag and the returned payload match. -/
theorem read_file_content_correct_witness :
    utf8Decode [(104 : Byte), 105] = some ['h', 'i']
    ∧ read_file_content [(104 : Byte), 105]
        ⟨"a.py".data, "utf-8".data, false, false⟩
      = some (utf8EncodeStr (translateNl ['h', 'i']),
          { (⟨"a.py".data, "utf-8".data, false, false⟩ : MetaR) with
              encoding := "utf-8".data,
              ends_with_newline := endsWithNl (translateNl ['h', 'i']) }) := by
  refine ⟨by decide, ?_⟩
  exact (read_file_content_correct [(104 : Byte), 105]
    ⟨"a.py".data, "utf-8".data, false, false⟩ rfl).1 ['h', 'i'] (by decide)

/-- C9: `latin1` decodes every byte sequence, so the all-candidates-fail
fallback of `_read_file_content` is unreachable on the text path: the trial
loop always succeeds and the recorded encoding is one of `utf-8`,
`utf-8-sig`, `latin1` — never `cp1252` or `iso-8859-1`. -/
theorem read_file_content_never_falls_back (bs : List Byte) (m : MetaR)
    (hm : m.is_binary = false) :
    ((textEncodings.get ⟨2, by decide⟩).2 bs).isSome
    ∧ tryTextEncodings textEncodings bs m ≠ none
    ∧ ∃ payload m2, read_file_content bs m = some (payload, m2)
        ∧ m2.is_binary = false
        ∧ (m2.encoding = "utf-8".data ∨ m2.encoding = "utf-8-sig".data
            ∨ m2.encoding = "latin1".data) := by
  refine ⟨by simp [textEncodings], ?_, ?_⟩
  · cases h : utf8Decode bs with
    | some t => simp [textEncodings, tryTextEncodings, h]
    | none =>
      have hsig := utf8SigDecode_none_of_utf8Decode_none bs h
      simp [textEncodings, tryTextEncodings, h, hsig]
  · cases h : utf8Decode bs with
    | some t =>
      have he : read_file_content bs m = some (utf8EncodeStr (translateNl t),
          { m with encoding := "utf-8".data,
                   ends_with_newline := endsWithNl (translateNl t) }) := by
        simp [read_file_content, hm, textEncodings, tryTextEncodings, h]
      exact ⟨_, _, he, hm, Or.inl rfl⟩
    | none =>
      have hsig := utf8SigDecode_none_of_utf8Decode_none bs h
      have he : read_file_content bs m = some (utf8EncodeStr (translateNl (latin1Decode bs)),
          { m with encoding := "latin1".data,
                   ends_with_newline := endsWithNl (translateNl (latin1Decode bs)) }) := by
        simp [read_file_content, hm, textEncodings, tryTextEncodings, h, hsig]
      exact ⟨_, _, he, hm, Or.inr (Or.inr rfl)⟩

/-- Witness for C9: a byte invalid in UTF-8 still decodes (as latin1). -/
theorem read_file_content_never_falls_back_witness :
    tryTextEncodings textEncodings [(255 : Byte)]
        ⟨"b".data, "utf-8".data, false, false⟩ ≠ none
    ∧ ∃ payload m2,
        read_file_content [(255 : Byte)] ⟨"b".data, "utf-8".data, false, false⟩
          = some (payload, m2)
        ∧ m2.is_binary = false
        ∧ (m2.encoding = "utf-8".data ∨ m2.encoding = "utf-8-sig".data
            ∨ m2.encoding = "latin1".data) :=
  (read_file_content_never_falls_back [(255 : Byte)]
    ⟨"b".data, "utf-8".data, false, false⟩ rfl).2

/-! Containment of every restore. -/

theorem restore_file_sync_contained (root : List (List Char)) (m : MetaR)
    (enc : Option (List Char)) (lines : List (List Char)) (w : FileWrite)
    (h : restore_file_sync root m enc lines = .ok w) : root <+: w.dest := by
  unfold restore_file_sync at h
  split at h
  · cases h
  next dest hs =>
    have hdest := (sanitize_path_ok_imp root m.path dest hs).2
    dsimp only [] at h
    split at h
    · split at h
      · cases h; exact hdest
      · cases h
    · cases h; exact hdest

theorem txtFlush_contained (root : List (List Char)) (s : TxtState)
    (h : ∀ w ∈ s.writes, root <+: w.dest) :
    ∀ w ∈ (txtFlush root s).writes, root <+: w.dest := by
  cases hm : s.meta with
  | none => simp only [txtFlush, hm]; exact h
  | some m =>
    cases hr : restore_file_sync root m s.enc s.content with
    | error e => simp only [txtFlush, hm, hr]; exact h
    | ok w0 =>
      simp only [txtFlush, hm, hr]
      intro w hw
      simp only [List.mem_append, List.mem_singleton] at hw
      rcases hw with hw | hw
      · exact h w hw
      · subst hw
        exact restore_file_sync_contained root m s.enc s.content _ hr

theorem txtStep_contained (root : List (List Char)) (s : TxtState) (line : List Char)
    (h : ∀ w ∈ s.writes, root <+: w.dest) :
    ∀ w ∈ (txtStep root s line).writes, root <+: w.dest := by
  dsimp only [txtStep]
  split
  · exact txtFlush_contained root s h
  · split
    · split
      · exact h
      · exact h
    · split
      · exact h
      · split
        · exact h
        · split
          · exact h
          · exact h

theorem txtRun_contained (root : List (List Char)) (ls : List (List Char)) :
    ∀ s : TxtState, (∀ w ∈ s.writes, root <+: w.dest) →
      ∀ w ∈ (ls.foldl (txtStep root) s).writes, root <+: w.dest := by
  induction ls with
  | nil => intro s h; exact h
  | cons l ls ih =>
    intro s h
    exact ih (txtStep root s l) (txtStep_contained root s l h)

/-- C2: during a txt split, an entry whose path escapes the destination is
rejected by sanitization (no write occurs for it — every write performed is
contained in the destination root), the remaining entries are still
processed, and the split still returns success; concretely, an archive with
entries `../evil.txt` and `good.txt` restores exactly `good.txt` inside the
root and succeeds. -/
theorem split_rejects_escaping_entries (root : List (List Char)) (stream : List Char) :
    (split_files_txt root stream).1 = true
    ∧ (∀ w ∈ (split_files_txt root stream).2.2, root <+: w.dest)
    ∧ split_files_txt ["dst".data]
        (write_txt_entry ⟨"../evil.txt".data, "utf-8".data, false, true⟩ "pwn\n".data
          ++ write_txt_entry ⟨"good.txt".data, "utf-8".data, false, true⟩ "hi\n".data)
      = (true, 1,
          [⟨["dst".data, "good.txt".data], utf8EncodeStr "hi\n".data⟩]) := by
  refine ⟨rfl, ?_, by decide⟩
  intro w hw
  exact txtFlush_contained root
    ((linesOf stream).foldl (txtStep root) ⟨none, none, [], false, 0, []⟩)
    (txtRun_contained root (linesOf stream) ⟨none, none, [], false, 0, []⟩
      (fun w hw => absurd hw (List.not_mem_nil w)))
    w hw

/-- Witness for C2: the write produced for `good.txt` in the concrete
two-entry hostile archive is contained in the destination root. -/
theorem split_rejects_escaping_entries_witness :
    (⟨["dst".data, "good.txt".data], utf8EncodeStr "hi\n".data⟩ : FileWrite)
      ∈ (split_files_txt ["dst".data]
        (write_txt_entry ⟨"../evil.txt".data, "utf-8".data, false, true⟩ "pwn\n".data
          ++ write_txt_entry ⟨"good.txt".data, "utf-8".data, false, true⟩ "hi\n".data)).2.2
    ∧ ["dst".data] <+:
        (⟨["dst".data, "good.txt".data], utf8EncodeStr "hi\n".data⟩ : FileWrite).dest :=
  ⟨by decide,
    (split_rejects_escaping_entries ["dst".data]
      (write_txt_entry ⟨"../evil.txt".data, "utf-8".data, false, true⟩ "pwn\n".data
        ++ write_txt_entry ⟨"good.txt".data, "utf-8".data, false, true⟩ "hi\n".data)).2.1
      ⟨["dst".data, "good.txt".data], utf8EncodeStr "hi\n".data⟩ (by decide)⟩

/-! List utilities used by the txt/markdown round-trip proofs. -/

theorem dropWhile_eq_self_of_all {α : Type} (p : α → Bool) (l : List α)
    (h : ∀ x ∈ l, ¬ p x = true) : l.dropWhile p = l := by
  cases l with
  | nil => rfl
  | cons a l => rw [List.dropWhile_cons, if_neg (h a (List.mem_cons_self a l))]

theorem dropTrailing_eq_self_of_all (p : Char → Bool) (l : List Char)
    (h : ∀ x ∈ l, ¬ p x = true) : dropTrailing p l = l := by
  unfold dropTrailing
  rw [dropWhile_eq_self_of_all p l.reverse (fun x hx => h x (List.mem_reverse.mp hx)),
    List.reverse_reverse]

theorem dropTrailing_concat_of_neg (p : Char → Bool) (l : List Char) (c : Char)
    (h : ¬ p c = true) : dropTrailing p (l ++ [c]) = l ++ [c] := by
  unfold dropTrailing
  rw [show (l ++ [c]).reverse = c :: l.reverse from by simp]
  rw [List.dropWhile_cons, if_neg h]
  simp

theorem modifyHead_append_of_ne_nil {α : Type} (f : List α → List α)
    (l₁ l₂ : List (List α)) (h : l₁ ≠ []) :
    (l₁ ++ l₂).modifyHead f = l₁.modifyHead f ++ l₂ := by
  cases l₁ with
  | nil => exact absurd rfl h
  | cons a l => rfl

theorem splitOnP_append_sep {α : Type} (p : α → Bool) (x : α) (hx : p x = true)
    (l m : List α) :
    List.splitOnP p (l ++ x :: m) = List.splitOnP p l ++ List.splitOnP p m := by
  induction l with
  | nil =>
    rw [List.nil_append, List.splitOnP_cons, if_pos hx, List.splitOnP_nil]
    rfl
  | cons a l ih =>
    rw [List.cons_append, List.splitOnP_cons, List.splitOnP_cons, ih]
    by_cases ha : p a = true
    · rw [if_pos ha, if_pos ha, List.cons_append]
    · rw [if_neg ha, if_neg ha,
        modifyHead_append_of_ne_nil _ _ _ (List.splitOnP_ne_nil p l)]

theorem splitOn_append_cons {α : Type} (x : α) [DecidableEq α] (l m : List α) :
    (l ++ x :: m).splitOn x = l.splitOn x ++ m.splitOn x := by
  simp only [List.splitOn]
  exact splitOnP_append_sep (fun y => y == x) x (beq_self_eq_true x) l m

theorem splitOn_single_of_not_mem {α : Type} (x : α) [DecidableEq α] (l : List α)
    (h : x ∉ l) : l.splitOn x = [l] := by
  simp only [List.splitOn]
  refine List.splitOnP_eq_single _ _ ?_
  intro a ha hax
  exact h ((beq_iff_eq).mp hax ▸ ha)

theorem splitOn_ne_nil {α : Type} (x : α) [DecidableEq α] (l : List α) :
    l.splitOn x ≠ [] := by
  simp only [List.splitOn]
  exact List.splitOnP_ne_nil _ l

theorem mem_intercalate_of_mem {α : Type} (sep : List α) (c : α) :
    ∀ (L : List (List α)) (l : List α), l ∈ L → c ∈ l → c ∈ List.intercalate sep L
  | [], l, hl, _ => absurd hl (List.not_mem_nil l)
  | [a], l, hl, hc => by
    rcases List.mem_singleton.mp hl with rfl
    simpa [List.intercalate] using hc
  | a :: b :: L, l, hl, hc => by
    have : List.intercalate sep (a :: b :: L) = a ++ sep ++ List.intercalate sep (b :: L) := by
      simp [List.intercalate, List.intersperse]
    rw [this]
    rcases List.mem_cons.mp hl with rfl | hl2
    · simp [List.mem_append, hc]
    · have := mem_intercalate_of_mem sep c (b :: L) l hl2 hc
      simp [List.mem_append, this]

/-! Metadata line round-trip. -/

theorem expectChars_append (p s : List Char) : expectChars p (p ++ s) = some s := by
  induction p with
  | nil => rfl
  | cons c p ih => simp [expectChars, ih]

theorem scanToQuote_no_quote (path : List Char) (h : ∀ c ∈ path, c ≠ '"')
    (rest : List Char) : scanToQuote (path ++ '"' :: rest) = some (path, rest) := by
  induction path with
  | nil => simp [scanToQuote]
  | cons c p ih =>
    have hc := h c (List.mem_cons_self c p)
    have ih2 := ih (fun d hd => h d (List.mem_cons_of_mem c hd))
    rw [List.cons_append]
    simp [scanToQuote, if_neg hc, ih2]

theorem parseBoolLit_lit (b : Bool) (rest : List Char) :
    parseBoolLit ((if b then "true".data else "false".data) ++ rest) = some (b, rest) := by
  cases b
  · exact rfl
  · exact rfl

theorem scanToQuote_chunk (path : List Char) (h : ∀ c ∈ path, c ≠ '"')
    (t rest : List Char) :
    scanToQuote (path ++ (('"' :: t) ++ rest)) = some (path, t ++ rest) := by
  rw [List.cons_append]
  exact scanToQuote_no_quote path h (t ++ rest)

theorem parseMetaJson_metaJson (m : MetaR) (hp : ∀ c ∈ m.path, c ≠ '"')
    (he : ∀ c ∈ m.encoding, c ≠ '"') :
    parseMetaJson (metaJson m) = some m := by
  unfold metaJson parseMetaJson
  rw [expectChars_append, Option.some_bind]
  rw [scanToQuote_chunk m.path hp, Option.some_bind]
  dsimp only
  rw [expectChars_append, Option.some_bind]
  rw [scanToQuote_chunk m.encoding he, Option.some_bind]
  dsimp only
  rw [expectChars_append, Option.some_bind]
  rw [parseBoolLit_lit, Option.some_bind]
  dsimp only
  rw [expectChars_append, Option.some_bind]
  rw [parseBoolLit_lit, Option.some_bind]
  dsimp only
  rw [show expectChars "\x7d".data "\x7d".data = some [] from rfl, Option.some_bind]
  rfl

/-- C10: an entry restored with an empty content-line list yields a
zero-byte file regardless of its `ends_with_newline` flag — the
trailing-newline re-append step is skipped entirely for empty content, so
no lone newline is produced. -/
theorem restore_empty_lines_zero_byte (root : List (List Char)) (m : MetaR)
    (enc : Option (List Char)) (dest : List (List Char))
    (hs : sanitize_path root m.path = .ok dest) :
    reconstructContent m [] = []
    ∧ restore_file_sync root m enc [] = .ok ⟨dest, []⟩ := by
  refine ⟨rfl, ?_⟩
  unfold restore_file_sync
  simp only [hs]
  by_cases hb : enc = some "base64".data ∨ m.is_binary = true
  · rw [if_pos hb]
    rfl
  · rw [if_neg hb]
    rfl

/-- Witness for C10: a record with `ends_with_newline = true` and no content
lines still restores as a zero-byte file. -/
theorem restore_empty_lines_zero_byte_witness :
    restore_file_sync ["dst".data] ⟨"e.txt".data, "utf-8".data, false, true⟩ none []
      = .ok ⟨["dst".data, "e.txt".data], []⟩ :=
  (restore_empty_lines_zero_byte ["dst".data] ⟨"e.txt".data, "utf-8".data, false, true⟩
    none ["dst".data, "e.txt".data] (by rfl)).2

/-! The txt encoder emits three marker lines and the payload lines. -/

theorem metaJson_shape (m : MetaR) :
    metaJson m = '\x7b' :: (("\"path\": \"".data
      ++ (m.path ++ ("\", \"encoding\": \"".data
      ++ (m.encoding ++ ("\", \"is_binary\": ".data
      ++ ((if m.is_binary then "true".data else "false".data)
      ++ (", \"ends_with_newline\": ".data
      ++ (if m.ends_with_newline then "true".data else "false".data)))))))) ++ ['\x7d']) := by
  simp [metaJson, List.append_assoc]

theorem stripWs_wrap (mid : List Char) (a b : Char)
    (ha : ¬ isSpaceChar a = true) (hb : ¬ isSpaceChar b = true) :
    stripWs (a :: (mid ++ [b])) = a :: (mid ++ [b]) := by
  unfold stripWs
  rw [List.dropWhile_cons, if_neg ha]
  rw [show (a :: (mid ++ [b]) : List Char) = (a :: mid) ++ [b] from rfl]
  rw [dropTrailing_concat_of_neg _ _ _ hb]

theorem stripWs_cons_space (l : List Char) : stripWs (' ' :: l) = stripWs l := by
  unfold stripWs
  rw [List.dropWhile_cons, if_pos (by decide)]

theorem stripWs_metaJson (m : MetaR) : stripWs (metaJson m) = metaJson m := by
  rw [metaJson_shape]
  exact stripWs_wrap _ _ _ (by decide) (by decide)

theorem metaLineOf_all_ascii (m : MetaR)
    (hp : ∀ c ∈ m.path, 32 ≤ c.toNat ∧ c.toNat < 127)
    (he : ∀ c ∈ m.encoding, 32 ≤ c.toNat ∧ c.toNat < 127) :
    ∀ c ∈ metaLineOf m, 32 ≤ c.toNat ∧ c.toNat < 127 := by
  intro c hc
  unfold metaLineOf at hc
  rcases List.mem_append.mp hc with hc | hc
  · exact (by decide : ∀ x ∈ metaMarker, 32 ≤ x.toNat ∧ x.toNat < 127) c hc
  rcases List.mem_cons.mp hc with rfl | hc
  · exact ⟨by decide, by decide⟩
  unfold metaJson at hc
  rcases List.mem_append.mp hc with hc | hc
  · exact (by decide : ∀ x ∈ ("\x7b\"path\": \"".data : List Char),
      32 ≤ x.toNat ∧ x.toNat < 127) c hc
  rcases List.mem_append.mp hc with hc | hc
  · exact hp c hc
  rcases List.mem_append.mp hc with hc | hc
  · exact (by decide : ∀ x ∈ ("\", \"encoding\": \"".data : List Char),
      32 ≤ x.toNat ∧ x.toNat < 127) c hc
  rcases List.mem_append.mp hc with hc | hc
  · exact he c hc
  rcases List.mem_append.mp hc with hc | hc
  · exact (by decide : ∀ x ∈ ("\", \"is_binary\": ".data : List Char),
      32 ≤ x.toNat ∧ x.toNat < 127) c hc
  rcases List.mem_append.mp hc with hc | hc
  · by_cases hb : m.is_binary
    · rw [if_pos hb] at hc
      exact (by decide : ∀ x ∈ ("true".data : List Char),
        32 ≤ x.toNat ∧ x.toNat < 127) c hc
    · rw [if_neg hb] at hc
      exact (by decide : ∀ x ∈ ("false".data : List Char),
        32 ≤ x.toNat ∧ x.toNat < 127) c hc
  rcases List.mem_append.mp hc with hc | hc
  · exact (by decide : ∀ x ∈ (", \"ends_with_newline\": ".data : List Char),
      32 ≤ x.toNat ∧ x.toNat < 127) c hc
  rcases List.mem_append.mp hc with hc | hc
  · by_cases hb : m.ends_with_newline
    · rw [if_pos hb] at hc
      exact (by decide : ∀ x ∈ ("true".data : List Char),
        32 ≤ x.toNat ∧ x.toNat < 127) c hc
    · rw [if_neg hb] at hc
      exact (by decide : ∀ x ∈ ("false".data : List Char),
        32 ≤ x.toNat ∧ x.toNat < 127) c hc
  · exact (by decide : ∀ x ∈ ("\x7d".data : List Char),
      32 ≤ x.toNat ∧ x.toNat < 127) c hc

theorem linesOf_write_txt_entry (m : MetaR) (payload : List Char)
    (hm : '\n' ∉ metaLineOf m) (he2 : '\n' ∉ encLineOf m) :
    linesOf (write_txt_entry m payload)
      = sepMarker :: metaLineOf m :: encLineOf m :: payload.splitOn '\n' := by
  have hshape : write_txt_entry m payload
      = sepMarker ++ '\n' :: (metaLineOf m ++ '\n' :: (encLineOf m
          ++ '\n' :: (payload ++ ['\n']))) := by
    unfold write_txt_entry
    simp [List.append_assoc]
  rw [hshape]
  simp only [linesOf]
  rw [splitOn_append_cons, splitOn_append_cons, splitOn_append_cons, splitOn_append_cons]
  rw [splitOn_single_of_not_mem '\n' sepMarker (by decide),
    splitOn_single_of_not_mem '\n' (metaLineOf m) hm,
    splitOn_single_of_not_mem '\n' (encLineOf m) he2,
    List.splitOn_nil]
  have hassoc : ([sepMarker] ++ ([metaLineOf m] ++ ([encLineOf m]
        ++ (payload.splitOn '\n' ++ [[]]))))
      = (sepMarker :: metaLineOf m :: encLineOf m :: payload.splitOn '\n') ++ [[]] := by
    simp
  rw [hassoc, List.getLast?_concat, if_pos rfl, List.dropLast_concat]

/-! Running the txt decoder over one encoded entry. -/

theorem txtStep_init_sep (root : List (List Char)) :
    txtStep root ⟨none, none, [], false, 0, []⟩ sepMarker
      = ⟨none, none, [], false, 0, []⟩ := rfl

theorem txtStep_metaLine (root : List (List Char)) (s : TxtState) (m : MetaR)
    (hascii : ∀ c ∈ metaLineOf m, 32 ≤ c.toNat ∧ c.toNat < 127)
    (hp : ∀ c ∈ m.path, c ≠ '"') (he : ∀ c ∈ m.encoding, c ≠ '"') :
    txtStep root s (metaLineOf m) = { s with meta := some m, in_content := false } := by
  have hdt : dropTrailing (fun c => c = '\r') (metaLineOf m) = metaLineOf m :=
    dropTrailing_eq_self_of_all _ _ (fun c hc => by
      have h32 := (hascii c hc).1
      simp only [decide_eq_true_eq]
      intro hr
      subst hr
      exact absurd h32 (by decide))
  have hne : ¬ (metaLineOf m = sepMarker) := by
    intro hq
    have h2 : (metaLineOf m).headD 'z' = sepMarker.headD 'z' :=
      congrArg (fun l => l.headD 'z') hq
    rw [show (metaLineOf m).headD 'z' = 'F' from rfl] at h2
    exact absurd h2 (by decide)
  have hpre : metaMarker.isPrefixOf (metaLineOf m) = true :=
    List.isPrefixOf_iff_prefix.mpr ⟨' ' :: metaJson m, rfl⟩
  have hdrop : List.drop metaMarker.length (metaLineOf m) = ' ' :: metaJson m :=
    List.drop_left metaMarker (' ' :: metaJson m)
  simp only [txtStep, hdt, if_neg hne, hpre, if_true, hdrop, stripWs_cons_space,
    stripWs_metaJson, parseMetaJson_metaJson m hp he]

theorem txtStep_encLine_utf8 (root : List (List Char)) (s : TxtState) :
    txtStep root s "ENCODING: utf-8".data
      = { s with enc := some "utf-8".data, in_content := true } := rfl

theorem txtRun_content (root : List (List Char)) (ls : List (List Char)) :
    ∀ (acc : List (List Char)) (m : MetaR) (e : List Char) (n : Nat)
      (ws : List FileWrite)
      (hl : ∀ l ∈ ls, ('\r' ∉ l) ∧ l ≠ sepMarker
        ∧ ¬ metaMarker.isPrefixOf l = true ∧ ¬ encMarker.isPrefixOf l = true),
      ls.foldl (txtStep root) ⟨some m, some e, acc, true, n, ws⟩
        = ⟨some m, some e, acc ++ ls, true, n, ws⟩ := by
  induction ls with
  | nil => intro acc m e n ws _; simp
  | cons l ls ih =>
    intro acc m e n ws hl
    have h0 := hl l (List.mem_cons_self l ls)
    have hdt : dropTrailing (fun c => c = '\r') l = l :=
      dropTrailing_eq_self_of_all _ _ (fun c hc => by
        simp only [decide_eq_true_eq]
        intro hr
        subst hr
        exact h0.1 hc)
    have hstep : txtStep root ⟨some m, some e, acc, true, n, ws⟩ l
        = ⟨some m, some e, acc ++ [l], true, n, ws⟩ := by
      simp only [txtStep, hdt, if_neg h0.2.1, h0.2.2.1, h0.2.2.2]
      simp
    rw [List.foldl_cons, hstep,
      ih (acc ++ [l]) m e n ws (fun l2 hl2 => hl l2 (List.mem_cons_of_mem l hl2))]
    simp

theorem txtFlush_entry (root : List (List Char)) (m : MetaR) (dest : List (List Char))
    (payload e : List Char) (n : Nat) (ws : List FileWrite)
    (hsan : sanitize_path root m.path = .ok dest)
    (hbin : m.is_binary = false)
    (hb64 : ¬ (e = "base64".data))
    (hflag : m.ends_with_newline = endsWithNl payload) :
    txtFlush root ⟨some m, some e, payload.splitOn '\n', true, n, ws⟩
      = ⟨some m, some e, payload.splitOn '\n', true, n + 1,
          ws ++ [⟨dest, utf8EncodeStr payload⟩]⟩ := by
  have hrc : reconstructContent m (payload.splitOn '\n') = payload := by
    have hic : List.intercalate ['\n'] (payload.splitOn '\n') = payload :=
      List.intercalate_splitOn payload '\n'
    simp only [reconstructContent, if_neg (splitOn_ne_nil '\n' payload), hic, hflag]
    by_cases hnl : endsWithNl payload
    · simp [hnl]
    · simp [hnl]
  have hcond : ¬ ((some e : Option (List Char)) = some "base64".data
      ∨ m.is_binary = true) := by
    rintro (h | h)
    · exact hb64 (Option.some_injective _ h)
    · rw [hbin] at h; cases h
  have hres : restore_file_sync root m (some e) (payload.splitOn '\n')
      = .ok ⟨dest, utf8EncodeStr payload⟩ := by
    unfold restore_file_sync
    simp only [hsan, hrc, if_neg hcond]
  simp only [txtFlush, hres]

/-- C3 (amended): a text entry round-trips exactly through the txt format —
including trailing-newline presence — provided its content contains no
carriage return and no content line collides with the txt in-band markers
(no line equal to the separator, none starting with `FILE_METADATA:` or
`ENCODING:`); the base64 encode/decode round-trip is exact for every byte
sequence.  (The marker side conditions are necessary: see the
counterexample.) -/
theorem txt_roundtrip (root dest : List (List Char)) (m : MetaR) (payload : List Char)
    (hp : ∀ c ∈ m.path, (32 ≤ c.toNat ∧ c.toNat < 127) ∧ c ≠ '"' ∧ c ≠ '\\')
    (henc : m.encoding = "utf-8".data)
    (hbin : m.is_binary = false)
    (hflag : m.ends_with_newline = endsWithNl payload)
    (hsan : sanitize_path root m.path = .ok dest)
    (hcr : '\r' ∉ payload)
    (hlines : ∀ l ∈ payload.splitOn '\n',
        l ≠ sepMarker ∧ ¬ metaMarker.isPrefixOf l = true
          ∧ ¬ encMarker.isPrefixOf l = true) :
    split_files_txt root (write_txt_entry m payload)
      = (true, 1, [⟨dest, utf8EncodeStr payload⟩])
    ∧ ∀ bs : List Byte, b64Decode (b64Encode bs) = some bs := by
  refine ⟨?_, fun bs => b64Decode_b64Encode bs⟩
  have hpa : ∀ c ∈ m.path, 32 ≤ c.toNat ∧ c.toNat < 127 := fun c hc => (hp c hc).1
  have hea : ∀ c ∈ m.encoding, 32 ≤ c.toNat ∧ c.toNat < 127 := by
    rw [henc]; decide
  have hascii := metaLineOf_all_ascii m hpa hea
  have hmnl : '\n' ∉ metaLineOf m := fun hmem =>
    absurd (hascii '\n' hmem).1 (by decide)
  have hencline : encLineOf m = "ENCODING: utf-8".data := by
    rw [encLineOf, henc]; rfl
  have henl : '\n' ∉ encLineOf m := by
    rw [hencline]; decide
  have hcontent : ∀ l ∈ payload.splitOn '\n', ('\r' ∉ l) ∧ l ≠ sepMarker
      ∧ ¬ metaMarker.isPrefixOf l = true ∧ ¬ encMarker.isPrefixOf l = true := by
    intro l hl
    refine ⟨?_, (hlines l hl).1, (hlines l hl).2.1, (hlines l hl).2.2⟩
    intro hcmem
    have h1 := mem_intercalate_of_mem ['\n'] '\r' (payload.splitOn '\n') l hl hcmem
    rw [List.intercalate_splitOn payload '\n'] at h1
    exact hcr h1
  have h1 : (sepMarker :: metaLineOf m :: encLineOf m :: payload.splitOn '\n').foldl
      (txtStep root) ⟨none, none, [], false, 0, []⟩
      = ⟨some m, some "utf-8".data, payload.splitOn '\n', true, 0, []⟩ := by
    rw [List.foldl_cons, txtStep_init_sep root]
    rw [List.foldl_cons, txtStep_metaLine root _ m hascii (fun c hc => (hp c hc).2.1)
      (by rw [henc]; decide)]
    rw [List.foldl_cons, hencline, txtStep_encLine_utf8 root]
    exact (txtRun_content root (payload.splitOn '\n') [] m "utf-8".data 0 []
      hcontent).trans (by simp)
  unfold split_files_txt parse_and_restore_files
  simp only [linesOf_write_txt_entry m payload hmnl henl, h1,
    txtFlush_entry root m dest payload "utf-8".data 0 [] hsan hbin (by decide) hflag]
  simp

/-- C3 counterexample to the unrestricted claim: a text file whose content
is exactly the separator line `=== FILE_SEPARATOR ===` (no trailing
newline, matching its recorded flag) is restored as an empty file, not as
the original content, because the decoder treats the embedded line as an
entry boundary. -/
theorem txt_roundtrip_counterexample :
    split_files_txt ["dst".data]
        (write_txt_entry ⟨"a.txt".data, "utf-8".data, false, false⟩ sepMarker)
      = (true, 1, [⟨["dst".data, "a.txt".data], []⟩])
    ∧ utf8EncodeStr sepMarker ≠ ([] : List Byte) := ⟨by decide, by decide⟩

/-- Witness for C3: a two-line text file with no trailing newline
round-trips byte-exactly. -/
theorem txt_roundtrip_witness :
    split_files_txt ["dst".data]
        (write_txt_entry ⟨"a.txt".data, "utf-8".data, false, false⟩ "hello\nworld".data)
      = (true, 1,
          [⟨["dst".data, "a.txt".data], utf8EncodeStr "hello\nworld".data⟩]) :=
  (txt_roundtrip ["dst".data] ["dst".data, "a.txt".data]
    ⟨"a.txt".data, "utf-8".data, false, false⟩ "hello\nworld".data
    (by decide) rfl rfl (by decide) (by rfl) (by decide) (by decide)).1

/-! Prefetch-writer refinement lemmas. -/

theorem writePrefetchGo_eq {E C O : Type} (read : E → Option C)
    (wef : E → C → List O) :
    ∀ (rest : List E) (cur : E),
      writePrefetchGo read wef (read cur) cur rest
        = write_sequential read wef (cur :: rest) := by
  intro rest
  induction rest with
  | nil =>
    intro cur
    simp [writePrefetchGo, write_sequential]
  | cons e2 rest ih =>
    intro cur
    simp only [writePrefetchGo, write_sequential, List.flatMap_cons] at ih ⊢
    rw [ih e2]

theorem intercalate_cons_cons {α : Type} (sep : List α) (a b : List α)
    (l : List (List α)) :
    List.intercalate sep (a :: b :: l) = a ++ sep ++ List.intercalate sep (b :: l) := by
  simp [List.intercalate, List.intersperse]

theorem intercalate_eq_flatMap {α : Type} (sep : List α) :
    ∀ (bs : List (List α)) (b : List α),
      List.intercalate sep (b :: bs) = b ++ bs.flatMap (fun x => sep ++ x) := by
  intro bs
  induction bs with
  | nil => intro b; simp [List.intercalate]
  | cons b2 bs ih =>
    intro b
    rw [intercalate_cons_cons, ih b2]
    simp [List.append_assoc]

theorem writeJsonGo_eq {E C : Type} (read : E → Option C)
    (render : E → C → List Char) :
    ∀ (rest : List E) (cur : E) (first : Bool),
      writeJsonGo read render (read cur) cur rest first
        = (let L := (cur :: rest).filterMap (fun e => (read e).map (render e))
          if first then List.intercalate ",\n".data L
          else L.flatMap (fun b => ",\n".data ++ b)) := by
  intro rest
  induction rest with
  | nil =>
    intro cur first
    cases hr : read cur with
    | none => cases first <;> simp [writeJsonGo, hr, List.intercalate]
    | some c =>
      cases first <;>
        simp [writeJsonGo, hr, List.intercalate, List.intersperse]
  | cons e2 rest ih =>
    intro cur first
    cases hr : read cur with
    | none =>
      cases first <;>
        simpa [writeJsonGo, hr] using ih e2 _
    | some c =>
      cases first
      · simp only [writeJsonGo, hr, List.filterMap_cons, Option.map_some']
        rw [ih e2 false]
        simp [List.append_assoc, List.filterMap_cons, List.flatMap_cons]
      · simp only [writeJsonGo, hr, List.filterMap_cons, Option.map_some']
        rw [ih e2 false]
        rw [intercalate_eq_flatMap]
        simp [List.append_assoc, List.filterMap_cons]

/-- C6: the depth-1 read-ahead writer emits entries in exactly input order —
it produces the same stream as the purely sequential read-then-write writer,
with failed reads omitted; the inlined JSON variant likewise produces the
comma-separated concatenation of the successfully read entries in input
order.  (Instantiated in particular for the txt entry writer.) -/
theorem prefetch_writer_order {E C : Type} (read : E → Option C)
    (wef : E → C → List Char) (render : E → C → List Char) (entries : List E) :
    write_with_prefetch read wef entries = write_sequential read wef entries
    ∧ write_json_entries read render entries
        = List.intercalate ",\n".data
            (entries.filterMap (fun e => (read e).map (render e)))
    ∧ (∀ (readT : MetaR → Option (List Char)) (ms : List MetaR),
        write_with_prefetch readT write_txt_entry ms
          = write_sequential readT write_txt_entry ms) := by
  refine ⟨?_, ?_, ?_⟩
  · cases entries with
    | nil => rfl
    | cons e rest => exact writePrefetchGo_eq read wef rest e
  · cases entries with
    | nil => rfl
    | cons e rest =>
      rw [show write_json_entries read render (e :: rest)
        = writeJsonGo read render (read e) e rest true from rfl]
      rw [writeJsonGo_eq read render rest e true]
      simp
  · intro readT ms
    cases ms with
    | nil => rfl
    | cons e rest => exact writePrefetchGo_eq readT write_txt_entry rest e

/-! Order lemmas for the path comparison. -/

theorem charToNat_inj (a b : Char) (h : a.toNat = b.toNat) : a = b := by
  rcases a with ⟨⟨av, ha⟩, hva⟩
  rcases b with ⟨⟨bv, hb⟩, hvb⟩
  simp only [Char.toNat, UInt32.toNat] at h
  subst h
  rfl

theorem pathLeChars_trans :
    ∀ a b c, pathLeChars a b = true → pathLeChars b c = true →
      pathLeChars a c = true
  | [], _, _, _, _ => rfl
  | a :: as, [], _, h1, _ => by simp [pathLeChars] at h1
  | _ :: _, _ :: _, [], _, h2 => by simp [pathLeChars] at h2
  | a :: as, b :: bs, c :: cs, h1, h2 => by
    unfold pathLeChars at h1 h2 ⊢
    by_cases hab : a.toNat < b.toNat
    · rw [if_pos hab] at h1
      by_cases hbc : b.toNat < c.toNat
      · rw [if_pos (by omega : a.toNat < c.toNat)]
      · rw [if_neg hbc] at h2
        by_cases hcb : c.toNat < b.toNat
        · rw [if_pos hcb] at h2
          exact Bool.noConfusion h2
        · rw [if_pos (by omega : a.toNat < c.toNat)]
    · rw [if_neg hab] at h1
      by_cases hba : b.toNat < a.toNat
      · rw [if_pos hba] at h1
        exact Bool.noConfusion h1
      · rw [if_neg hba] at h1
        by_cases hbc : b.toNat < c.toNat
        · rw [if_pos (by omega : a.toNat < c.toNat)]
        · rw [if_neg hbc] at h2
          by_cases hcb : c.toNat < b.toNat
          · rw [if_pos hcb] at h2
            exact Bool.noConfusion h2
          · rw [if_neg hcb] at h2
            rw [if_neg (by omega : ¬ a.toNat < c.toNat),
              if_neg (by omega : ¬ c.toNat < a.toNat)]
            exact pathLeChars_trans as bs cs h1 h2

theorem pathLeChars_total :
    ∀ a b, (pathLeChars a b || pathLeChars b a) = true
  | [], _ => by simp [pathLeChars]
  | _ :: _, [] => by simp [pathLeChars]
  | a :: as, b :: bs => by
    unfold pathLeChars
    by_cases hab : a.toNat < b.toNat
    · rw [if_pos hab]
      simp
    · rw [if_neg hab]
      by_cases hba : b.toNat < a.toNat
      · rw [if_pos hba, if_pos hba]
        simp
      · rw [if_neg hba, if_neg hba, if_neg hab]
        exact pathLeChars_total as bs

theorem pathLeChars_antisymm :
    ∀ a b, pathLeChars a b = true → pathLeChars b a = true → a = b
  | [], [], _, _ => rfl
  | [], _ :: _, _, h2 => by simp [pathLeChars] at h2
  | _ :: _, [], h1, _ => by simp [pathLeChars] at h1
  | a :: as, b :: bs, h1, h2 => by
    unfold pathLeChars at h1 h2
    by_cases hab : a.toNat < b.toNat
    · rw [if_neg (by omega : ¬ b.toNat < a.toNat), if_pos hab] at h2
      exact Bool.noConfusion h2
    · by_cases hba : b.toNat < a.toNat
      · rw [if_neg hab, if_pos hba] at h1
        exact Bool.noConfusion h1
      · rw [if_neg hab, if_neg hba] at h1
        rw [if_neg hba, if_neg hab] at h2
        have htl := pathLeChars_antisymm as bs h1 h2
        have hc : a = b := charToNat_inj a b (by omega)
        rw [hc, htl]

theorem sortEntries_sorted {P : Type} (es : List (MetaR × P)) :
    List.Pairwise (fun x y => pathLeChars x.1.path y.1.path = true) (sortEntries es) := by
  unfold sortEntries
  exact @List.sorted_mergeSort (MetaR × P)
    (fun x y => pathLeChars x.1.path y.1.path)
    (fun _ _ _ h1 h2 => pathLeChars_trans _ _ _ h1 h2)
    (fun _ _ => pathLeChars_total _ _) es

theorem sortEntries_perm {P : Type} (es : List (MetaR × P)) :
    (sortEntries es).Perm es :=
  List.mergeSort_perm es _

theorem sortEntries_eq_of_perm {P : Type} (es es' : List (MetaR × P))
    (hperm : es.Perm es') (hnd : (es.map (fun x => x.1.path)).Nodup) :
    sortEntries es = sortEntries es' := by
  have hp1 := sortEntries_perm es
  have hp2 := sortEntries_perm es'
  have hps : (sortEntries es).Perm (sortEntries es') :=
    hp1.trans (hperm.trans hp2.symm)
  have hnd1 : ((sortEntries es).map (fun x => x.1.path)).Nodup :=
    (List.Perm.nodup_iff (hp1.map _)).mpr hnd
  have hnd2 : ((sortEntries es').map (fun x => x.1.path)).Nodup :=
    (List.Perm.nodup_iff (hp2.map _)).mpr ((List.Perm.nodup_iff (hperm.map _)).mp hnd)
  have hne1 : List.Pairwise (fun x y : MetaR × P => x.1.path ≠ y.1.path)
      (sortEntries es) := List.pairwise_map.mp hnd1
  have hne2 : List.Pairwise (fun x y : MetaR × P => x.1.path ≠ y.1.path)
      (sortEntries es') := List.pairwise_map.mp hnd2
  have hs1 := (sortEntries_sorted es).and hne1
  have hs2 := (sortEntries_sorted es').and hne2
  haveI : IsAntisymm (MetaR × P)
      (fun x y => pathLeChars x.1.path y.1.path = true ∧ x.1.path ≠ y.1.path) :=
    ⟨fun x y hxy hyx => absurd (pathLeChars_antisymm _ _ hxy.1 hyx.1) hxy.2⟩
  exact List.eq_of_perm_of_sorted hps hs1 hs2

/-- C7: the archive's entries appear in path-sorted order (lexicographic by
code point on the relative path): after `combine_files` sorts the gathered
entries by path, the streaming writer emits them in exactly that list
order; and the sorted entry list — hence the produced archive — does not
depend on the order in which the parallel metadata workers delivered the
entries (any permutation of a duplicate-free entry list sorts identically). -/
theorem combine_entries_path_sorted {P : Type}
    (read : MetaR × P → Option (MetaR × List Char))
    (wef : MetaR × P → MetaR × List Char → List Char)
    (es es' : List (MetaR × P)) :
    List.Pairwise (fun p q => pathLeChars p q = true)
        ((sortEntries es).map (fun x => x.1.path))
    ∧ write_with_prefetch read wef (sortEntries es)
        = write_sequential read wef (sortEntries es)
    ∧ (es.Perm es' → (es.map (fun x => x.1.path)).Nodup →
        sortEntries es = sortEntries es') := by
  refine ⟨List.pairwise_map.mpr (sortEntries_sorted es), ?_, ?_⟩
  · cases h : sortEntries es with
    | nil => rfl
    | cons e rest => exact writePrefetchGo_eq read wef rest e
  · intro hperm hnd
    exact sortEntries_eq_of_perm es es' hperm hnd

/-- Witness for C7: two worker orders of the same two entries produce the
same sorted entry list. -/
theorem combine_entries_path_sorted_witness :
    sortEntries [(⟨"b.txt".data, "utf-8".data, false, true⟩, (0 : Nat)),
        (⟨"a.txt".data, "utf-8".data, false, true⟩, 0)]
      = sortEntries [(⟨"a.txt".data, "utf-8".data, false, true⟩, (0 : Nat)),
        (⟨"b.txt".data, "utf-8".data, false, true⟩, 0)] :=
  (combine_entries_path_sorted (fun e => some (e.1, [])) (fun _ _ => [])
    [(⟨"b.txt".data, "utf-8".data, false, true⟩, (0 : Nat)),
      (⟨"a.txt".data, "utf-8".data, false, true⟩, 0)]
    [(⟨"a.txt".data, "utf-8".data, false, true⟩, (0 : Nat)),
      (⟨"b.txt".data, "utf-8".data, false, true⟩, 0)]).2.2
    (by decide) (by decide)

/-! Format-detection lemmas. -/

theorem sniffContent_eq_amended (text : List Char) :
    sniffContent text = sniffSpecAmended (stripWs (text.take 100)) := by
  unfold sniffContent sniffSpecAmended
  dsimp only
  split_ifs <;> first | rfl | tauto

/-- C8 (amended): `_detect_input_format` agrees with the amended rule list:
extension first via the suffix table, content sniffing for every input
whose suffix maps to txt (including `.txt` itself), with the yaml
fingerprint also covering a leading `# Combined Files Archive` without
backticks. -/
theorem detect_input_format_amended (suffix text : List Char) :
    detect_input_format suffix text = detectSpecC8Amended suffix text := by
  unfold detect_input_format detectSpecC8Amended
  by_cases h1 : suffix = ".json".data
  · subst h1; rfl
  by_cases h2 : suffix = ".xml".data
  · subst h2; rfl
  by_cases h3 : suffix = ".yaml".data
  · subst h3; rfl
  by_cases h4 : suffix = ".yml".data
  · subst h4; rfl
  by_cases h5 : suffix = ".md".data
  · subst h5; rfl
  by_cases h6 : suffix = ".markdown".data
  · subst h6; rfl
  by_cases h7 : suffix = ".txt".data
  · subst h7
    exact sniffContent_eq_amended text
  · have hf : formatFromSuffix suffix = "txt".data := by
      unfold formatFromSuffix
      rw [if_neg h1, if_neg h2, if_neg h3, if_neg h4, if_neg h5, if_neg h6, if_neg h7]
    have hlk : suffixFormatTable.lookup suffix = none := by
      unfold suffixFormatTable
      simp only [List.lookup]
      rw [beq_eq_false_iff_ne.mpr h1, beq_eq_false_iff_ne.mpr h2,
        beq_eq_false_iff_ne.mpr h3, beq_eq_false_iff_ne.mpr h4,
        beq_eq_false_iff_ne.mpr h5, beq_eq_false_iff_ne.mpr h6,
        beq_eq_false_iff_ne.mpr h7]
    rw [hf, hlk, if_pos rfl]
    exact sniffContent_eq_amended text

/-- C8 counterexample to the claim as stated: a file (unknown extension)
beginning `# Combined Files Archive` with no backticks in its head is
detected as yaml by the code, while the claim's fingerprint list yields
txt. -/
theorem detect_input_format_counterexample :
    detect_input_format ".dat".data "# Combined Files Archive\nsource: x\n".data
      = "yaml".data
    ∧ detectSpecC8 ".dat".data "# Combined Files Archive\nsource: x\n".data
      = "txt".data
    ∧ ("yaml".data : List Char) ≠ "txt".data :=
  ⟨by decide, by decide, by decide⟩
/-! Markdown fence arithmetic. -/

theorem maxBtGo_nil (cur maxB : Nat) : maxBtGo [] cur maxB = maxB := rfl

theorem maxBtGo_cons (c : Char) (rest : List Char) (cur maxB : Nat) :
    maxBtGo (c :: rest) cur maxB
      = if c = backquoteChar then maxBtGo rest (cur + 1) (max maxB (cur + 1))
        else maxBtGo rest 0 maxB := by
  simp only [maxBtGo]

theorem maxBtGo_le : ∀ (l : List Char) (cur maxB : Nat), maxB ≤ maxBtGo l cur maxB
  | [], _, _ => le_refl _
  | c :: rest, cur, maxB => by
    rw [maxBtGo_cons]
    by_cases hc : c = backquoteChar
    · rw [if_pos hc]
      exact le_trans (le_max_left _ _) (maxBtGo_le rest _ _)
    · rw [if_neg hc]
      exact maxBtGo_le rest _ _

theorem maxBtGo_mono : ∀ (l : List Char) (cur M M' : Nat), M ≤ M' →
    maxBtGo l cur M ≤ maxBtGo l cur M'
  | [], _, _, _, h => h
  | c :: rest, cur, M, M', h => by
    rw [maxBtGo_cons, maxBtGo_cons]
    by_cases hc : c = backquoteChar
    · rw [if_pos hc, if_pos hc]
      exact maxBtGo_mono rest _ _ _ (max_le_max h (le_refl _))
    · rw [if_neg hc, if_neg hc]
      exact maxBtGo_mono rest _ _ _ h

theorem maxBtGo_append_reset (y : List Char) (c : Char) (hc : ¬ c = backquoteChar) :
    ∀ (x : List Char) (cur maxB : Nat),
      maxBtGo (x ++ c :: y) cur maxB = maxBtGo y 0 (maxBtGo x cur maxB)
  | [], cur, maxB => by
    rw [List.nil_append, maxBtGo_cons, if_neg hc, maxBtGo_nil]
  | x0 :: x, cur, maxB => by
    rw [List.cons_append, maxBtGo_cons, maxBtGo_cons]
    by_cases hx : x0 = backquoteChar
    · rw [if_pos hx, if_pos hx, maxBtGo_append_reset y c hc x]
    · rw [if_neg hx, if_neg hx, maxBtGo_append_reset y c hc x]

theorem maxBtGo_run_lower : ∀ (k : Nat) (rest : List Char) (cur maxB : Nat),
    cur ≤ maxB → cur + k ≤ maxBtGo (List.replicate k backquoteChar ++ rest) cur maxB
  | 0, rest, cur, maxB, h => by
    rw [List.replicate_zero, List.nil_append]
    have := maxBtGo_le rest cur maxB
    omega
  | k + 1, rest, cur, maxB, _ => by
    rw [List.replicate_succ, List.cons_append, maxBtGo_cons, if_pos rfl]
    have := maxBtGo_run_lower k rest (cur + 1) (max maxB (cur + 1)) (le_max_right _ _)
    omega

theorem run_le_of_replicate_append (k : Nat) (l : List Char)
    (h : ∃ t, l = List.replicate k backquoteChar ++ t) : k ≤ maxBacktickRun l := by
  obtain ⟨t, rfl⟩ := h
  have := maxBtGo_run_lower k t 0 0 (le_refl 0)
  unfold maxBacktickRun
  omega

theorem maxRun_piece_le (c : Char) (hc : ¬ c = backquoteChar) :
    ∀ (pieces : List (List Char)) (l : List Char), l ∈ pieces →
      maxBacktickRun l ≤ maxBacktickRun (List.intercalate [c] pieces)
  | [], l, hl => absurd hl (List.not_mem_nil l)
  | [a], l, hl => by
    rcases List.mem_singleton.mp hl with rfl
    simp [List.intercalate]
  | a :: b :: ps, l, hl => by
    rw [intercalate_cons_cons, List.append_assoc, List.singleton_append]
    unfold maxBacktickRun
    rw [maxBtGo_append_reset _ c hc]
    rcases List.mem_cons.mp hl with rfl | hl2
    · exact maxBtGo_le _ _ _
    · have ih := maxRun_piece_le c hc (b :: ps) l hl2
      unfold maxBacktickRun at ih
      exact le_trans ih (maxBtGo_mono _ _ _ _ (Nat.zero_le _))

theorem get_safe_fence_replicate (content : List Char) :
    get_safe_fence content
      = List.replicate
          (if 3 ≤ maxBacktickRun content then maxBacktickRun content + 1 else 3)
          backquoteChar := by
  unfold get_safe_fence
  dsimp only
  rw [show ("```".data : List Char).length = 3 from rfl]
  by_cases h : 3 ≤ maxBacktickRun content
  · rw [if_pos h, if_pos h]
  · rw [if_neg h, if_neg h]
    decide

theorem fence_len_gt_run (content : List Char) :
    maxBacktickRun content < (get_safe_fence content).length := by
  rw [get_safe_fence_replicate, List.length_replicate]
  by_cases h : 3 ≤ maxBacktickRun content
  · rw [if_pos h]; omega
  · rw [if_neg h]; omega
/-! Prefix and stripping helpers for the markdown parser. -/

theorem isPrefixOf_append_self : ∀ (p t : List Char), p.isPrefixOf (p ++ t) = true
  | [], _ => by simp [List.isPrefixOf]
  | a :: p, t => by
    rw [List.cons_append]
    simp [List.isPrefixOf, isPrefixOf_append_self p t]

theorem eq_append_of_isPrefixOf : ∀ (p l : List Char),
    p.isPrefixOf l = true → ∃ t, l = p ++ t
  | [], l, _ => ⟨l, rfl⟩
  | a :: p, [], h => by cases h
  | a :: p, b :: l, h => by
    simp only [List.isPrefixOf, Bool.and_eq_true, beq_iff_eq] at h
    obtain ⟨t, rfl⟩ := eq_append_of_isPrefixOf p l h.2
    exact ⟨t, by rw [h.1, List.cons_append]⟩

theorem isPrefixOf_eq_false_of_getD (p l : List Char) (i : Nat) (hi : i < p.length)
    (a b : Char) (ha : p.getD i 'z' = a) (hb : l.getD i 'z' = b) (hab : ¬ a = b) :
    p.isPrefixOf l = false := by
  by_contra h
  rw [Bool.not_eq_false] at h
  obtain ⟨t, rfl⟩ := eq_append_of_isPrefixOf p l h
  apply hab
  rw [← ha, ← hb]
  simp [List.getD_eq_getElem?_getD, List.getElem?_append_left hi]

theorem rstripWs_eq_append (l : List Char) : ∃ t, l = rstripWs l ++ t := by
  refine ⟨(l.reverse.takeWhile isSpaceChar).reverse, ?_⟩
  have h := List.takeWhile_append_dropWhile (p := isSpaceChar) (l := l.reverse)
  calc l = l.reverse.reverse := (List.reverse_reverse l).symm
    _ = (l.reverse.takeWhile isSpaceChar ++ l.reverse.dropWhile isSpaceChar).reverse := by
        rw [h]
    _ = rstripWs l ++ (l.reverse.takeWhile isSpaceChar).reverse := by
        rw [List.reverse_append]; rfl

theorem content_piece_ne_fence (content l : List Char)
    (hl : l ∈ content.splitOn '\n') : ¬ rstripWs l = get_safe_fence content := by
  intro h
  obtain ⟨t, ht⟩ := rstripWs_eq_append l
  rw [h, get_safe_fence_replicate] at ht
  have h1 := run_le_of_replicate_append _ l ⟨t, ht⟩
  have h2 : maxBacktickRun l ≤ maxBacktickRun content := by
    have h3 := maxRun_piece_le '\n' (by decide) (content.splitOn '\n') l hl
    rwa [List.intercalate_splitOn] at h3
  have h4 := fence_len_gt_run content
  rw [get_safe_fence_replicate, List.length_replicate] at h4
  omega

theorem takeWhile_eq_self_of_all {α : Type} (p : α → Bool) :
    ∀ (l : List α), (∀ x ∈ l, p x = true) → l.takeWhile p = l
  | [], _ => rfl
  | a :: l, h => by
    rw [List.takeWhile_cons, if_pos (h a (List.mem_cons_self a l)),
      takeWhile_eq_self_of_all p l (fun x hx => h x (List.mem_cons_of_mem a hx))]

theorem takeWhile_append_stop {α : Type} (p : α → Bool) (y : α) (hy : ¬ p y = true)
    (ys : List α) : ∀ (xs : List α), (∀ x ∈ xs, p x = true) →
      (xs ++ y :: ys).takeWhile p = xs
  | [], _ => by rw [List.nil_append, List.takeWhile_cons, if_neg hy]
  | a :: xs, h => by
    rw [List.cons_append, List.takeWhile_cons, if_pos (h a (List.mem_cons_self a xs)),
      takeWhile_append_stop p y hy ys xs (fun x hx => h x (List.mem_cons_of_mem a hx))]

theorem dropWhile_eq_self_head {α : Type} (p : α → Bool) (x : α) (xs : List α)
    (h : (x :: xs).dropWhile p = x :: xs) : ¬ p x = true := by
  intro hp
  rw [List.dropWhile_cons, if_pos hp] at h
  have h3 := (List.dropWhile_sublist (p := p) (l := xs)).length_le
  have h2 := congrArg List.length h
  simp at h2
  omega

theorem rstripWs_append_of_rstrip_inv (a lang : List Char)
    (hl : rstripWs lang = lang) (hne : ¬ lang = []) :
    rstripWs (a ++ lang) = a ++ lang := by
  obtain ⟨y, ys, hy⟩ : ∃ y ys, lang.reverse = y :: ys := by
    cases hr : lang.reverse with
    | nil =>
      exfalso
      apply hne
      have := congrArg List.reverse hr
      simpa using this
    | cons y ys => exact ⟨y, ys, rfl⟩
  have hy2 : ¬ isSpaceChar y = true := by
    have h5 : lang.reverse.dropWhile isSpaceChar = lang.reverse := by
      have h6 := congrArg List.reverse hl
      unfold rstripWs dropTrailing at h6
      rwa [List.reverse_reverse] at h6
    rw [hy] at h5
    exact dropWhile_eq_self_head _ _ _ h5
  unfold rstripWs dropTrailing
  rw [List.reverse_append, hy, List.cons_append, List.dropWhile_cons, if_neg hy2,
    ← List.cons_append, ← hy, ← List.reverse_append, List.reverse_reverse]

theorem fence_open_extract (content lang : List Char)
    (hbq : backquoteChar ∉ lang) (hstr : rstripWs lang = lang) :
    (rstripWs (get_safe_fence content ++ lang)).takeWhile (fun c => c = backquoteChar)
      = get_safe_fence content := by
  have hfall : ∀ x ∈ get_safe_fence content, decide (x = backquoteChar) = true := by
    intro x hx
    rw [get_safe_fence_replicate] at hx
    rcases (List.eq_of_mem_replicate hx) with rfl
    simp
  have hfs : ∀ x ∈ get_safe_fence content, ¬ isSpaceChar x = true := by
    intro x hx
    rw [get_safe_fence_replicate] at hx
    rcases (List.eq_of_mem_replicate hx) with rfl
    decide
  cases hlang : lang with
  | nil =>
    rw [List.append_nil]
    rw [show rstripWs (get_safe_fence content) = get_safe_fence content from
      dropTrailing_eq_self_of_all _ _ hfs]
    exact takeWhile_eq_self_of_all _ _ hfall
  | cons c0 cs =>
    rw [← hlang]
    rw [rstripWs_append_of_rstrip_inv _ _ hstr (by rw [hlang]; intro h; cases h)]
    rw [hlang]
    have hc0 : ¬ c0 = backquoteChar := by
      intro h
      apply hbq
      rw [hlang, h]
      exact List.mem_cons_self _ _
    exact takeWhile_append_stop _ c0 (by simpa using hc0) cs _ hfall
/-! Single-line behaviour of the markdown parser. -/

theorem mdStep_header_line (fs : List MdFile) (cf : Option (List Char))
    (co : List (List Char)) (en : List Char) (bi : Bool) (path l : List Char)
    (hH : ("## ".data : List Char).isPrefixOf l = true)
    (hdrop : stripWs (l.drop 3) = path)
    (hTOC : ¬ path = "Table of Contents".data) :
    mdStep ⟨fs, none, false, cf, co, en, bi⟩ l
      = ⟨fs, some path, false, none, [], "utf-8".data, false⟩ := by
  unfold mdStep
  dsimp only
  rw [if_pos ⟨hH, rfl⟩, hdrop, if_neg hTOC]

theorem mdStep_meta_or_blank (fs : List MdFile) (p : List Char)
    (cf : Option (List Char)) (co : List (List Char)) (en : List Char) (bi : Bool)
    (l : List Char)
    (hH : ("## ".data : List Char).isPrefixOf l = false)
    (hF : ("```".data : List Char).isPrefixOf l = false) :
    ∃ e2 b2, mdStep ⟨fs, some p, false, cf, co, en, bi⟩ l
      = ⟨fs, some p, false, cf, co, e2, b2⟩ := by
  by_cases hE : ("**Encoding:**".data : List Char).isPrefixOf l = true
  · refine ⟨if dropTrailing (fun c => c = ' ') (stripWs (afterFirstColon l)) = []
      then "utf-8".data else dropTrailing (fun c => c = ' ') (stripWs (afterFirstColon l)),
      bi, ?main⟩
    case main =>
      unfold mdStep
      dsimp only
      rw [if_neg (by intro hco; rw [hH] at hco; exact absurd hco.1 (by decide))]
      simp only [Option.isSome_some]
      rw [if_pos trivial, if_pos hE]
      dsimp only
      rw [if_neg (by intro hco; rw [hF] at hco; exact absurd hco.2 (by decide))]
      rw [if_neg (by intro hco; exact absurd hco.1 (by decide))]
      rw [if_neg (by decide)]
  · by_cases hB : ("**Binary:**".data : List Char).isPrefixOf l = true
    · refine ⟨en, containsSeq "Yes".data l, ?main⟩
      case main =>
        unfold mdStep
        dsimp only
        rw [if_neg (by intro hco; rw [hH] at hco; exact absurd hco.1 (by decide))]
        simp only [Option.isSome_some]
        rw [if_pos trivial, if_neg hE, if_pos hB]
        dsimp only
        rw [if_neg (by intro hco; rw [hF] at hco; exact absurd hco.2 (by decide))]
        rw [if_neg (by intro hco; exact absurd hco.1 (by decide))]
        rw [if_neg (by decide)]
    · refine ⟨en, bi, ?main⟩
      case main =>
        unfold mdStep
        dsimp only
        rw [if_neg (by intro hco; rw [hH] at hco; exact absurd hco.1 (by decide))]
        simp only [Option.isSome_some]
        rw [if_pos trivial, if_neg hE, if_neg hB]
        dsimp only
        rw [if_neg (by intro hco; rw [hF] at hco; exact absurd hco.2 (by decide))]
        rw [if_neg (by intro hco; exact absurd hco.1 (by decide))]
        rw [if_neg (by decide)]

theorem mdStep_fence_open (fs : List MdFile) (p : List Char)
    (cf : Option (List Char)) (co : List (List Char)) (en : List Char) (bi : Bool)
    (l : List Char)
    (hH : ("## ".data : List Char).isPrefixOf l = false)
    (hF : ("```".data : List Char).isPrefixOf l = true) :
    ∃ e2 b2, mdStep ⟨fs, some p, false, cf, co, en, bi⟩ l
      = ⟨fs, some p, true,
          some ((rstripWs l).takeWhile (fun c => c = backquoteChar)), co, e2, b2⟩ := by
  by_cases hE : ("**Encoding:**".data : List Char).isPrefixOf l = true
  · refine ⟨if dropTrailing (fun c => c = ' ') (stripWs (afterFirstColon l)) = []
      then "utf-8".data else dropTrailing (fun c => c = ' ') (stripWs (afterFirstColon l)),
      bi, ?main⟩
    case main =>
      unfold mdStep
      dsimp only
      rw [if_neg (by intro hco; rw [hH] at hco; exact absurd hco.1 (by decide))]
      simp only [Option.isSome_some]
      rw [if_pos trivial, if_pos hE]
      dsimp only
      rw [if_pos ⟨rfl, hF⟩]
  · by_cases hB : ("**Binary:**".data : List Char).isPrefixOf l = true
    · refine ⟨en, containsSeq "Yes".data l, ?main⟩
      case main =>
        unfold mdStep
        dsimp only
        rw [if_neg (by intro hco; rw [hH] at hco; exact absurd hco.1 (by decide))]
        simp only [Option.isSome_some]
        rw [if_pos trivial, if_neg hE, if_pos hB]
        dsimp only
        rw [if_pos ⟨rfl, hF⟩]
    · refine ⟨en, bi, ?main⟩
      case main =>
        unfold mdStep
        dsimp only
        rw [if_neg (by intro hco; rw [hH] at hco; exact absurd hco.1 (by decide))]
        simp only [Option.isSome_some]
        rw [if_pos trivial, if_neg hE, if_neg hB]
        dsimp only
        rw [if_pos ⟨rfl, hF⟩]

theorem mdStep_capture (fs : List MdFile) (p fence : List Char)
    (co : List (List Char)) (en : List Char) (bi : Bool) (l : List Char)
    (hfen : ¬ rstripWs l = fence) :
    ∃ e2 b2, mdStep ⟨fs, some p, true, some fence, co, en, bi⟩ l
      = ⟨fs, some p, true, some fence, co ++ [l], e2, b2⟩ := by
  by_cases hE : ("**Encoding:**".data : List Char).isPrefixOf l = true
  · refine ⟨if dropTrailing (fun c => c = ' ') (stripWs (afterFirstColon l)) = []
      then "utf-8".data else dropTrailing (fun c => c = ' ') (stripWs (afterFirstColon l)),
      bi, ?main⟩
    case main =>
      unfold mdStep
      dsimp only
      rw [if_neg (by intro hco; exact absurd hco.2 (by decide))]
      simp only [Option.isSome_some]
      rw [if_pos trivial, if_pos hE]
      dsimp only
      rw [if_neg (by intro hco; exact absurd hco.1 (by decide))]
      rw [if_neg (by intro hco; exact hfen (Option.some.inj hco.2).symm)]
      rw [if_pos (by decide)]
  · by_cases hB : ("**Binary:**".data : List Char).isPrefixOf l = true
    · refine ⟨en, containsSeq "Yes".data l, ?main⟩
      case main =>
        unfold mdStep
        dsimp only
        rw [if_neg (by intro hco; exact absurd hco.2 (by decide))]
        simp only [Option.isSome_some]
        rw [if_pos trivial, if_neg hE, if_pos hB]
        dsimp only
        rw [if_neg (by intro hco; exact absurd hco.1 (by decide))]
        rw [if_neg (by intro hco; exact hfen (Option.some.inj hco.2).symm)]
        rw [if_pos (by decide)]
    · refine ⟨en, bi, ?main⟩
      case main =>
        unfold mdStep
        dsimp only
        rw [if_neg (by intro hco; exact absurd hco.2 (by decide))]
        simp only [Option.isSome_some]
        rw [if_pos trivial, if_neg hE, if_neg hB]
        dsimp only
        rw [if_neg (by intro hco; exact absurd hco.1 (by decide))]
        rw [if_neg (by intro hco; exact hfen (Option.some.inj hco.2).symm)]
        rw [if_pos (by decide)]

theorem mdStep_fence_close (fs : List MdFile) (p fence : List Char)
    (co : List (List Char)) (en : List Char) (bi : Bool)
    (hr : rstripWs fence = fence)
    (hE : ("**Encoding:**".data : List Char).isPrefixOf fence = false)
    (hB : ("**Binary:**".data : List Char).isPrefixOf fence = false) :
    mdStep ⟨fs, some p, true, some fence, co, en, bi⟩ fence
      = ⟨fs, some p, false, none, co, en, bi⟩ := by
  have hE2 : ¬ ("**Encoding:**".data : List Char).isPrefixOf fence = true := by
    rw [hE]; decide
  have hB2 : ¬ ("**Binary:**".data : List Char).isPrefixOf fence = true := by
    rw [hB]; decide
  unfold mdStep
  dsimp only
  rw [if_neg (by intro hco; exact absurd hco.2 (by decide))]
  simp only [Option.isSome_some]
  rw [if_pos trivial, if_neg hE2, if_neg hB2]
  dsimp only
  rw [if_neg (by intro hco; exact absurd hco.1 (by decide))]
  rw [if_pos ⟨rfl, by rw [hr]⟩]

theorem mdRun_capture : ∀ (ls : List (List Char)) (fs : List MdFile)
    (p fence : List Char) (co : List (List Char)) (en : List Char) (bi : Bool),
    (∀ l ∈ ls, ¬ rstripWs l = fence) →
    ∃ e2 b2, ls.foldl mdStep ⟨fs, some p, true, some fence, co, en, bi⟩
      = ⟨fs, some p, true, some fence, co ++ ls, e2, b2⟩
  | [], fs, p, fence, co, en, bi, _ =>
    ⟨en, bi, by rw [List.foldl_nil, List.append_nil]⟩
  | l :: ls, fs, p, fence, co, en, bi, h => by
    obtain ⟨e1, b1, h1⟩ :=
      mdStep_capture fs p fence co en bi l (h l (List.mem_cons_self _ _))
    obtain ⟨e2, b2, h2⟩ :=
      mdRun_capture ls fs p fence (co ++ [l]) e1 b1
        (fun x hx => h x (List.mem_cons_of_mem _ hx))
    exact ⟨e2, b2, by
      rw [List.foldl_cons, h1, h2, List.append_assoc, List.singleton_append]⟩
theorem splitOn_cons_self {α : Type} (x : α) [DecidableEq α] (m : List α) :
    (x :: m).splitOn x = [] :: m.splitOn x := by
  rw [show (x :: m) = [] ++ x :: m from rfl, splitOn_append_cons, List.splitOn_nil]
  rfl

/-- **C4** (markdown fence safety): the fence chosen by `_get_safe_fence` is
strictly longer than the longest backtick run of the content (and is exactly
`run + 1` backticks once the run reaches the base length 3), and rendering a
text entry with `write_md_entry` and parsing it back with
`_parse_markdown_archive`'s fence-matching state machine recovers exactly the
original content: the parsed entry's content lines joined by newlines equal
the content.  The newline-free hypotheses say that the path, the displayed
size/mtime strings, the recorded encoding name and the language tag are
single-line tokens, that the language tag carries no backticks and no outer
whitespace, and that the path is `strip`-invariant and is not the literal
Table of Contents heading. -/
theorem markdown_fence_roundtrip (m : MetaR) (sizeStr timeStr lang content : List Char)
    (hsize : '\n' ∉ sizeStr) (htime : '\n' ∉ timeStr)
    (hencNl : '\n' ∉ m.encoding)
    (hlangNl : '\n' ∉ lang) (hlangBq : backquoteChar ∉ lang)
    (hlangStrip : rstripWs lang = lang)
    (hpathNl : '\n' ∉ m.path) (hpathStrip : stripWs m.path = m.path)
    (hpathTOC : ¬ m.path = "Table of Contents".data) :
    (maxBacktickRun content < (get_safe_fence content).length
      ∧ (3 ≤ maxBacktickRun content →
          get_safe_fence content
            = List.replicate (maxBacktickRun content + 1) backquoteChar))
    ∧ ∃ enc bin,
        parse_markdown_archive (write_md_entry m sizeStr timeStr lang content)
          = [⟨m.path, enc, bin, content.splitOn '\n'⟩]
        ∧ List.intercalate ['\n'] (content.splitOn '\n') = content := by
  refine ⟨⟨fence_len_gt_run content, fun h3 => by
    rw [get_safe_fence_replicate, if_pos h3]⟩, ?_⟩
  obtain ⟨n, hn3, hfr⟩ : ∃ n, 3 ≤ n
      ∧ get_safe_fence content = List.replicate n backquoteChar := by
    refine ⟨if 3 ≤ maxBacktickRun content then maxBacktickRun content + 1 else 3,
      ?_, get_safe_fence_replicate content⟩
    by_cases h : 3 ≤ maxBacktickRun content
    · rw [if_pos h]; omega
    · rw [if_neg h]
  have hfenceNl : '\n' ∉ get_safe_fence content := by
    intro hx
    rw [hfr] at hx
    rcases List.eq_of_mem_replicate hx with h
    exact absurd h (by decide)
  have hfd : ∀ t : List Char, (get_safe_fence content ++ t).getD 0 'z' = backquoteChar := by
    intro t
    rw [hfr]
    cases n with
    | zero => exact absurd hn3 (by omega)
    | succ k => rw [List.replicate_succ]; rfl
  have hfd0 : (get_safe_fence content).getD 0 'z' = backquoteChar := by
    have := hfd []
    rwa [List.append_nil] at this
  have hshape : write_md_entry m sizeStr timeStr lang content
      = ("## ".data ++ m.path) ++ '\n'
        :: '\n'
        :: (("**Size:** ".data ++ sizeStr ++ "  ".data) ++ '\n'
        :: (("**Modified:** ".data ++ timeStr ++ "  ".data) ++ '\n'
        :: (("**Encoding:** ".data ++ m.encoding ++ "  ".data) ++ '\n'
        :: ("**Binary:** No  ".data ++ '\n'
        :: '\n'
        :: ((get_safe_fence content ++ lang) ++ '\n'
        :: (content ++ '\n'
        :: (get_safe_fence content ++ '\n' :: '\n' :: []))))))) := by
    unfold write_md_entry
    simp [List.append_assoc]
  have hA1 : '\n' ∉ ("## ".data ++ m.path : List Char) := by
    intro hx
    rcases List.mem_append.mp hx with h | h
    · exact absurd h (by decide)
    · exact hpathNl h
  have hA3 : '\n' ∉ ("**Size:** ".data ++ sizeStr ++ "  ".data : List Char) := by
    intro hx
    rcases List.mem_append.mp hx with h | h
    · rcases List.mem_append.mp h with h2 | h2
      · exact absurd h2 (by decide)
      · exact hsize h2
    · exact absurd h (by decide)
  have hA4 : '\n' ∉ ("**Modified:** ".data ++ timeStr ++ "  ".data : List Char) := by
    intro hx
    rcases List.mem_append.mp hx with h | h
    · rcases List.mem_append.mp h with h2 | h2
      · exact absurd h2 (by decide)
      · exact htime h2
    · exact absurd h (by decide)
  have hA5 : '\n' ∉ ("**Encoding:** ".data ++ m.encoding ++ "  ".data : List Char) := by
    intro hx
    rcases List.mem_append.mp hx with h | h
    · rcases List.mem_append.mp h with h2 | h2
      · exact absurd h2 (by decide)
      · exact hencNl h2
    · exact absurd h (by decide)
  have hA8 : '\n' ∉ (get_safe_fence content ++ lang : List Char) := by
    intro hx
    rcases List.mem_append.mp hx with h | h
    · exact hfenceNl h
    · exact hlangNl h
  have hlines : (write_md_entry m sizeStr timeStr lang content).splitOn '\n'
      = ("## ".data ++ m.path)
        :: []
        :: ("**Size:** ".data ++ sizeStr ++ "  ".data)
        :: ("**Modified:** ".data ++ timeStr ++ "  ".data)
        :: ("**Encoding:** ".data ++ m.encoding ++ "  ".data)
        :: "**Binary:** No  ".data
        :: []
        :: (get_safe_fence content ++ lang)
        :: (content.splitOn '\n' ++ [get_safe_fence content, [], []]) := by
    rw [hshape]
    rw [splitOn_append_cons, splitOn_single_of_not_mem '\n' _ hA1]
    rw [splitOn_cons_self]
    rw [splitOn_append_cons, splitOn_single_of_not_mem '\n' _ hA3]
    rw [splitOn_append_cons, splitOn_single_of_not_mem '\n' _ hA4]
    rw [splitOn_append_cons, splitOn_single_of_not_mem '\n' _ hA5]
    rw [splitOn_append_cons, splitOn_single_of_not_mem '\n' _ (by decide)]
    rw [splitOn_cons_self]
    rw [splitOn_append_cons, splitOn_single_of_not_mem '\n' _ hA8]
    rw [splitOn_append_cons]
    rw [splitOn_append_cons, splitOn_single_of_not_mem '\n' _ hfenceNl]
    rw [splitOn_cons_self, List.splitOn_nil]
    simp
  have hH1 : ("## ".data : List Char).isPrefixOf ("## ".data ++ m.path) = true :=
    isPrefixOf_append_self _ _
  have hdrop1 : stripWs (("## ".data ++ m.path).drop 3) = m.path := by
    rw [show (3 : Nat) = ("## ".data : List Char).length from rfl, List.drop_left,
      hpathStrip]
  have hstep1 := mdStep_header_line [] none [] "utf-8".data false m.path
    ("## ".data ++ m.path) hH1 hdrop1 hpathTOC
  obtain ⟨e2, b2, hstep2⟩ := mdStep_meta_or_blank [] m.path none []
    "utf-8".data false [] (by decide) (by decide)
  obtain ⟨e3, b3, hstep3⟩ := mdStep_meta_or_blank [] m.path none [] e2 b2
    ("**Size:** ".data ++ sizeStr ++ "  ".data)
    (isPrefixOf_eq_false_of_getD _ _ 0 (by decide) '#' '*' rfl rfl (by decide))
    (isPrefixOf_eq_false_of_getD _ _ 0 (by decide) backquoteChar '*' rfl rfl (by decide))
  obtain ⟨e4, b4, hstep4⟩ := mdStep_meta_or_blank [] m.path none [] e3 b3
    ("**Modified:** ".data ++ timeStr ++ "  ".data)
    (isPrefixOf_eq_false_of_getD _ _ 0 (by decide) '#' '*' rfl rfl (by decide))
    (isPrefixOf_eq_false_of_getD _ _ 0 (by decide) backquoteChar '*' rfl rfl (by decide))
  obtain ⟨e5, b5, hstep5⟩ := mdStep_meta_or_blank [] m.path none [] e4 b4
    ("**Encoding:** ".data ++ m.encoding ++ "  ".data)
    (isPrefixOf_eq_false_of_getD _ _ 0 (by decide) '#' '*' rfl rfl (by decide))
    (isPrefixOf_eq_false_of_getD _ _ 0 (by decide) backquoteChar '*' rfl rfl (by decide))
  obtain ⟨e6, b6, hstep6⟩ := mdStep_meta_or_blank [] m.path none [] e5 b5
    "**Binary:** No  ".data (by decide) (by decide)
  obtain ⟨e7, b7, hstep7⟩ := mdStep_meta_or_blank [] m.path none [] e6 b6 []
    (by decide) (by decide)
  have hF8 : ("```".data : List Char).isPrefixOf (get_safe_fence content ++ lang)
      = true := by
    obtain ⟨t, ht⟩ : ∃ t, get_safe_fence content ++ lang = "```".data ++ t := by
      refine ⟨List.replicate (n - 3) backquoteChar ++ lang, ?_⟩
      rw [hfr, show ("```".data : List Char) = List.replicate 3 backquoteChar from
        by decide, ← List.append_assoc, ← List.replicate_add,
        show 3 + (n - 3) = n from by omega]
    rw [ht]
    exact isPrefixOf_append_self _ _
  obtain ⟨e8, b8, hstep8⟩ := mdStep_fence_open [] m.path none [] e7 b7
    (get_safe_fence content ++ lang)
    (isPrefixOf_eq_false_of_getD _ _ 0 (by decide) '#' backquoteChar rfl
      (hfd lang) (by decide))
    hF8
  rw [fence_open_extract content lang hlangBq hlangStrip] at hstep8
  obtain ⟨e9, b9, hstep9⟩ := mdRun_capture (content.splitOn '\n') [] m.path
    (get_safe_fence content) [] e8 b8
    (fun l hl => content_piece_ne_fence content l hl)
  have hrfence : rstripWs (get_safe_fence content) = get_safe_fence content := by
    refine dropTrailing_eq_self_of_all _ _ ?_
    intro x hx
    rw [hfr] at hx
    rcases List.eq_of_mem_replicate hx with rfl
    decide
  have hstep10 := mdStep_fence_close [] m.path (get_safe_fence content)
    ([] ++ content.splitOn '\n') e9 b9 hrfence
    (isPrefixOf_eq_false_of_getD _ _ 0 (by decide) '*' backquoteChar rfl hfd0
      (by decide))
    (isPrefixOf_eq_false_of_getD _ _ 0 (by decide) '*' backquoteChar rfl hfd0
      (by decide))
  obtain ⟨e11, b11, hstep11⟩ := mdStep_meta_or_blank [] m.path none
    ([] ++ content.splitOn '\n') e9 b9 [] (by decide) (by decide)
  obtain ⟨e12, b12, hstep12⟩ := mdStep_meta_or_blank [] m.path none
    ([] ++ content.splitOn '\n') e11 b11 [] (by decide) (by decide)
  refine ⟨e12, b12, ?_, List.intercalate_splitOn content '\n'⟩
  unfold parse_markdown_archive
  dsimp only
  rw [hlines]
  rw [List.foldl_cons, hstep1, List.foldl_cons, hstep2, List.foldl_cons, hstep3,
    List.foldl_cons, hstep4, List.foldl_cons, hstep5, List.foldl_cons, hstep6,
    List.foldl_cons, hstep7, List.foldl_cons, hstep8, List.foldl_append, hstep9,
    List.foldl_cons, hstep10, List.foldl_cons, hstep11, List.foldl_cons, hstep12,
    List.foldl_nil]
  dsimp only
  rw [List.nil_append, List.nil_append]
theorem markdown_fence_roundtrip_witness :
    ('\n' ∉ ("1.2 KB".data : List Char))
    ∧ ('\n' ∉ ("2024-01-01".data : List Char))
    ∧ ('\n' ∉ (⟨"a/b.py".data, "utf-8".data, false, true⟩ : MetaR).encoding)
    ∧ ('\n' ∉ ("python".data : List Char))
    ∧ (backquoteChar ∉ ("python".data : List Char))
    ∧ rstripWs "python".data = "python".data
    ∧ ('\n' ∉ (⟨"a/b.py".data, "utf-8".data, false, true⟩ : MetaR).path)
    ∧ stripWs (⟨"a/b.py".data, "utf-8".data, false, true⟩ : MetaR).path = (⟨"a/b.py".data, "utf-8".data, false, true⟩ : MetaR).path
    ∧ ¬ (⟨"a/b.py".data, "utf-8".data, false, true⟩ : MetaR).path = "Table of Contents".data
    ∧ ((maxBacktickRun "print(1)\n``x".data
          < (get_safe_fence "print(1)\n``x".data).length
        ∧ (3 ≤ maxBacktickRun "print(1)\n``x".data →
            get_safe_fence "print(1)\n``x".data
              = List.replicate (maxBacktickRun "print(1)\n``x".data + 1)
                  backquoteChar))
      ∧ ∃ enc bin,
          parse_markdown_archive
              (write_md_entry (⟨"a/b.py".data, "utf-8".data, false, true⟩ : MetaR) "1.2 KB".data "2024-01-01".data
                "python".data "print(1)\n``x".data)
            = [⟨(⟨"a/b.py".data, "utf-8".data, false, true⟩ : MetaR).path, enc, bin, ("print(1)\n``x".data).splitOn '\n'⟩]
          ∧ List.intercalate ['\n'] (("print(1)\n``x".data).splitOn '\n')
              = "print(1)\n``x".data) :=
  ⟨by decide, by decide, by decide, by decide, by decide, by decide, by decide,
    by decide, by decide,
    markdown_fence_roundtrip (⟨"a/b.py".data, "utf-8".data, false, true⟩ : MetaR) "1.2 KB".data "2024-01-01".data
      "python".data "print(1)\n``x".data (by decide) (by decide) (by decide)
      (by decide) (by decide) (by decide) (by decide) (by decide) (by decide)⟩
